import Mathlib

/-!
# LinkedSet (src/linked_set.hpp): a shallow embedding

The C++ class `ics::LinkedSet<T>` keeps its elements in a singly linked chain of
`LN` nodes that hangs off a permanent header node.  In the source the header node
is called `trailer` and the pointer to the last node of the chain is called
`front`; the embedding keeps these names.

Memory is an arena: a list of cells addressed by their index.  `new` appends a
cell, `delete` overwrites a cell with `none`, and addresses are never reused, so
a pointer to a deleted node stays distinguishable from every live node.
Dereferencing `nullptr`, a deleted cell or an address outside the arena is
undefined behaviour in C++ and yields `Err.invalidAccess` here.  Every `for`
loop of the source runs on fuel `arena size + 1`: a loop that uses more
iterations than that has visited some cell twice, and since no loop of the source
changes the chain while it keeps running, the C++ loop would then run for ever
(`Err.nonTermination`).

The one undefined access that the set produces by its own calls is the store
through `front` after `erase` has deleted the last node. `insert` and `run` stop
there with `Err.invalidAccess`; `insertRaw` and `runRaw` follow the compiled code
past it (the store lands in the dead storage, the node is counted but not linked
behind the header) and agree with `insert` and `run` everywhere else.

`T` is any type with decidable equality (the source compares with `==`) and a
default value (the header is made by `new LN()`, which default-initialises
`value`; that value is never read).  `int` fields are modelled by `Int`: the
counters are not wrapped, signed overflow being undefined in C++.
-/

set_option linter.unusedSectionVars false
set_option linter.unusedVariables false

namespace ics

/-- Abnormal outcomes: the two exceptions thrown in linked_set.hpp, and the two
ways a C++ run can fail to produce a value at all. -/
inductive Err where
  | invalidAccess
  | nonTermination
  | IteratorTypeError
  | ComparingDifferentIteratorsError
  deriving DecidableEq, Repr

/-- The type `LN*`: `none` is `nullptr`, `some a` is the address of cell `a`. -/
abbrev Ptr := Option Nat

/-- Class `LN`: `T value; LN* next = nullptr;`. -/
structure LN (T : Type) where
  value : T
  next : Ptr
  deriving DecidableEq, Repr

/-- The arena of `LN` cells; `none` marks a cell that has been deleted. -/
abbrev Heap (T : Type) := List (Option (LN T))

/-- The data members of `LinkedSet<T>`: `front`, `trailer`, `used`, `mod_count`. -/
structure LinkedSet where
  front : Ptr
  trailer : Ptr
  used : Int
  mod_count : Int
  deriving DecidableEq, Repr

/-- The data members of `LinkedSet<T>::Iterator`.  `ref_set` is the identity
(address) of the set object the iterator was made from. -/
structure Iterator where
  current : Ptr
  ref_set : Nat
  expected_mod_count : Int
  can_erase : Bool
  deriving DecidableEq, Repr

section Model

variable {T : Type} [DecidableEq T] [Inhabited T]

/-- Bound on the number of iterations of a loop that terminates. -/
def fuel (h : Heap T) : Nat := h.length + 1

/-- Reading `*p`: `none` when `p` is null, out of the arena, or deleted. -/
def load (h : Heap T) : Ptr → Option (LN T)
  | none => none
  | some a =>
    match h[a]? with
    | some c => c
    | none => none

/-- The expression `new LN(v, n)`: the grown arena and the address of the new cell. -/
def alloc (h : Heap T) (n : LN T) : Heap T × Nat :=
  (h ++ [some n], h.length)

/-- The assignment `p->next = q` on a cell that holds `n`. -/
def setNext (h : Heap T) (a : Nat) (n : LN T) (q : Ptr) : Heap T :=
  h.set a (some { n with next := q })

/-- The statement `delete p`. -/
def free (h : Heap T) (a : Nat) : Heap T :=
  h.set a none

/-- Default member initialisers followed by the empty body of `LinkedSet()`:
`front = new LN(); trailer = front; used = 0; mod_count = 0`. -/
def LinkedSet.construct (h : Heap T) : Heap T × LinkedSet :=
  let r := alloc h ⟨default, none⟩
  (r.1, { front := some r.2, trailer := some r.2, used := 0, mod_count := 0 })

/-- Method `empty()`: `return used==0`. -/
def LinkedSet.empty (s : LinkedSet) : Bool := decide (s.used = 0)

/-- Method `size()`: `return used`. -/
def LinkedSet.size (s : LinkedSet) : Int := s.used

/-- The loop of `contains`:
`for (p = ...; p != nullptr; p = p->next) if (p->value==element) return true;`
and `return false` after it. -/
def containsLoop (h : Heap T) (element : T) : Nat → Ptr → Except Err Bool
  | _, none => .ok false
  | 0, some _ => .error .nonTermination
  | n + 1, some a =>
    match load h (some a) with
    | none => .error .invalidAccess
    | some c => if c.value = element then .ok true else containsLoop h element n c.next

/-- Method `contains(element)`: the loop started at `trailer->next`. -/
def contains (h : Heap T) (s : LinkedSet) (element : T) : Except Err Bool :=
  match load h s.trailer with
  | none => .error .invalidAccess
  | some t => containsLoop h element (fuel h) t.next

/-- Method `insert(element)`:
`if (contains(element)) return 0; front->next = new LN(element);
front = front->next; used += 1; return 1;`. -/
def insert (h : Heap T) (s : LinkedSet) (element : T) : Except Err (Heap T × LinkedSet × Int) :=
  match contains h s element with
  | .error e => .error e
  | .ok true => .ok (h, s, 0)
  | .ok false =>
    let r := alloc h ⟨element, none⟩
    match s.front, load r.1 s.front with
    | some fa, some f =>
      let h2 := setNext r.1 fa f (some r.2)
      match load h2 (some fa) with
      | none => .error .invalidAccess
      | some f2 => .ok (h2, { s with front := f2.next, used := s.used + 1 }, 1)
    | _, _ => .error .invalidAccess

/-- The loop of `erase`, with `p` the loop variable:
`for (p = trailer; p->next != nullptr; p = p->next) if (p->next->value==element)
{ to_delete = p->next; p->next = p->next->next; delete to_delete; used -= 1; return 1; }`
and `return 0` after it. -/
def eraseLoop (h : Heap T) (s : LinkedSet) (element : T) :
    Nat → Nat → Except Err (Heap T × LinkedSet × Int)
  | 0, _ => .error .nonTermination
  | n + 1, p =>
    match load h (some p) with
    | none => .error .invalidAccess
    | some pc =>
      match pc.next with
      | none => .ok (h, s, 0)
      | some q =>
        match load h (some q) with
        | none => .error .invalidAccess
        | some qc =>
          if qc.value = element then
            .ok (free (setNext h p pc qc.next) q, { s with used := s.used - 1 }, 1)
          else eraseLoop h s element n q

/-- Method `erase(element)`: the loop started at `trailer`. -/
def erase (h : Heap T) (s : LinkedSet) (element : T) : Except Err (Heap T × LinkedSet × Int) :=
  match s.trailer with
  | none => .error .invalidAccess
  | some t => eraseLoop h s element (fuel h) t

/-- Method `clear()`: `front = new LN(); trailer = front; used = 0;`. -/
def clear (h : Heap T) (s : LinkedSet) : Heap T × LinkedSet :=
  let r := alloc h ⟨default, none⟩
  (r.1, { s with front := some r.2, trailer := some r.2, used := 0 })

/-- The loop of `insert_all`: `for (const T& p : i) count += insert(p);`. -/
def insert_allLoop (h : Heap T) (s : LinkedSet) (count : Int) :
    List T → Except Err (Heap T × LinkedSet × Int)
  | [] => .ok (h, s, count)
  | p :: ps =>
    match insert h s p with
    | .error e => .error e
    | .ok (h1, s1, r) => insert_allLoop h1 s1 (count + r) ps

/-- Method `insert_all(i)`: `int count=0; for (...) count+=insert(p); return count;`.
The iterable is given by the finite sequence of values it yields. -/
def insert_all (h : Heap T) (s : LinkedSet) (i : List T) : Except Err (Heap T × LinkedSet × Int) :=
  insert_allLoop h s 0 i

/-- The loop of `erase_all`: `for (T& p : i) { erased+=1; erase(p); }`. -/
def erase_allLoop (h : Heap T) (s : LinkedSet) (erased : Int) :
    List T → Except Err (Heap T × LinkedSet × Int)
  | [] => .ok (h, s, erased)
  | p :: ps =>
    match erase h s p with
    | .error e => .error e
    | .ok (h1, s1, _) => erase_allLoop h1 s1 (erased + 1) ps

/-- Method `erase_all(i)`: `int erased=0; for (...) {erased+=1; erase(p);} return erased;`. -/
def erase_all (h : Heap T) (s : LinkedSet) (i : List T) : Except Err (Heap T × LinkedSet × Int) :=
  erase_allLoop h s 0 i

/-- Constructor `LinkedSet(const std::initializer_list<T>& il)`: the default
member initialisers, then `insert_all(il)`. -/
def LinkedSet.fromList (h : Heap T) (il : List T) : Except Err (Heap T × LinkedSet) :=
  let r := LinkedSet.construct h
  match insert_all r.1 r.2 il with
  | .error e => .error e
  | .ok (h1, s1, _) => .ok (h1, s1)

/-- Constructor `Iterator(iterate_over, initial)`: `current(initial)`,
`ref_set(iterate_over)`, `expected_mod_count(ref_set->mod_count)`, and the
default `can_erase = true`. -/
def Iterator.construct (this : Nat) (s : LinkedSet) (initial : Ptr) : Iterator :=
  { current := initial, ref_set := this, expected_mod_count := s.mod_count, can_erase := true }

/-- Method `begin()`: `return Iterator(this, trailer->next)`. -/
def LinkedSet.begin (h : Heap T) (this : Nat) (s : LinkedSet) : Except Err Iterator :=
  match load h s.trailer with
  | none => .error .invalidAccess
  | some t => .ok (Iterator.construct this s t.next)

/-- Method `end()`: `return Iterator(this, front->next)`. -/
def LinkedSet.end_ (h : Heap T) (this : Nat) (s : LinkedSet) : Except Err Iterator :=
  match load h s.front with
  | none => .error .invalidAccess
  | some f => .ok (Iterator.construct this s f.next)

/-- Prefix `operator++` of the iterator, `s` being the set `*ref_set`:
`if (current == ref_set->front->next) return *this; current=current->next; return *this;`. -/
def Iterator.preIncrement (h : Heap T) (s : LinkedSet) (it : Iterator) : Except Err Iterator :=
  match load h s.front with
  | none => .error .invalidAccess
  | some f =>
    if it.current = f.next then .ok it
    else
      match load h it.current with
      | none => .error .invalidAccess
      | some c => .ok { it with current := c.next }

/-- Postfix `operator++(int)` of the iterator, `s` being the set `*ref_set`:
`if (current == ref_set->front->next) return *this; Iterator to_return(*this);
current=current->next; return to_return;`.  The result is the returned iterator
paired with the iterator object after the call. -/
def Iterator.postIncrement (h : Heap T) (s : LinkedSet) (it : Iterator) :
    Except Err (Iterator × Iterator) :=
  match load h s.front with
  | none => .error .invalidAccess
  | some f =>
    if it.current = f.next then .ok (it, it)
    else
      match load h it.current with
      | none => .error .invalidAccess
      | some c => .ok (it, { it with current := c.next })

/-- Walk of the chain that every traversing loop of the source performs
(`for (LN *p = ...; p != nullptr; p = p->next)`), recording the address and the
value of each node visited. -/
def walk (h : Heap T) : Nat → Ptr → Except Err (List (Nat × T))
  | _, none => .ok []
  | 0, some _ => .error .nonTermination
  | n + 1, some a =>
    match load h (some a) with
    | none => .error .invalidAccess
    | some c =>
      match walk h n c.next with
      | .error e => .error e
      | .ok cs => .ok ((a, c.value) :: cs)

/-- The nodes reachable from the header, from `trailer->next` to the last one. -/
def nodes (h : Heap T) (s : LinkedSet) : Except Err (List (Nat × T)) :=
  match load h s.trailer with
  | none => .error .invalidAccess
  | some t => walk h (fuel h) t.next

/-- The values met by a traversal from the first element to the last. -/
def traversal (h : Heap T) (s : LinkedSet) : Except Err (List T) :=
  match nodes h s with
  | .error e => .error e
  | .ok cs => .ok (cs.map Prod.snd)

/-- The pointer to the last node of a chain `cs` that hangs off the header `t`:
the header itself when the chain is empty. -/
def lastPtr (t : Ptr) (cs : List (Nat × T)) : Ptr :=
  match cs.getLast? with
  | none => t
  | some c => some c.1

/-- A consistent state: the chain from the header is finite, `front` designates
its last node (the header when there is none), and `used` is its length. -/
def Consistent (h : Heap T) (s : LinkedSet) : Prop :=
  ∃ cs, nodes h s = .ok cs ∧ s.front = lastPtr s.trailer cs ∧ s.used = (cs.length : Int)

/-- The distinct values of a sequence, in the order of their first occurrence. -/
def firstOccurrences : List T → List T
  | [] => []
  | x :: xs => x :: (firstOccurrences xs).filter (fun y => decide (y ≠ x))

/-- List segment: the cells `cs` (address and value) are live in `h` and linked
one to the next, the first one at `p`, and the `next` of the last one is `q`. -/
def Seg (h : Heap T) : Ptr → List (Nat × T) → Ptr → Prop
  | p, [], q => p = q
  | p, c :: cs, q => p = some c.1 ∧ ∃ nx, load h (some c.1) = some ⟨c.2, nx⟩ ∧ Seg h nx cs q

/-- The proof-side form of a consistent state, with the chain `cs` named: the
header `t` and the cells `cs` form a null-terminated list, `front` designates the
last cell of it, and `used` counts the cells after the header. -/
def Good (h : Heap T) (s : LinkedSet) (cs : List (Nat × T)) : Prop :=
  ∃ t tv, s.trailer = some t ∧ Seg h (some t) ((t, tv) :: cs) none ∧
    s.front = lastPtr (some t) cs ∧ s.used = (cs.length : Int)

/-- The arena after `LinkedSet<int> s({1,2})` has been built in an empty arena:
cell 0 is the header, cells 1 and 2 hold the values 1 and 2. -/
def arena12 : Heap Int := [some ⟨0, some 1⟩, some ⟨1, some 2⟩, some ⟨2, none⟩]

/-- The data members of the set `{1,2}` that lives in `arena12`. -/
def set12 : LinkedSet := { front := some 2, trailer := some 0, used := 2, mod_count := 0 }

/-- The arena after `LinkedSet<std::string> s({"a","b"})` has been built in an
empty arena. -/
def arenaAB : Heap String := [some ⟨"", some 1⟩, some ⟨"a", some 2⟩, some ⟨"b", none⟩]

/-- The data members of the set `{"a","b"}` that lives in `arenaAB`. -/
def setAB : LinkedSet := { front := some 2, trailer := some 0, used := 2, mod_count := 0 }

/-- Method `retain_all(i)`. Its body in the source is empty: no statement touches
the set, and control flows off the end of the function without a `return`, so
no value is returned (`none`). -/
def retain_all (h : Heap T) (s : LinkedSet) (i : List T) : Heap T × LinkedSet × Option Int :=
  (h, s, none)

/-- The loop shared by `operator==`, `operator<=` (over the nodes of `*this`, asking
`rhs`) and `operator>=` (over the nodes of `rhs`, asking `*this`):
`for (p = ...; p != nullptr; p = p->next) if (!other.contains(p->value)) return false;`
and `return true` after it. -/
def containedLoop (h : Heap T) (other : LinkedSet) : Nat → Ptr → Except Err Bool
  | _, none => .ok true
  | 0, some _ => .error .nonTermination
  | n + 1, some a =>
    match load h (some a) with
    | none => .error .invalidAccess
    | some c =>
      match contains h other c.value with
      | .error e => .error e
      | .ok false => .ok false
      | .ok true => containedLoop h other n c.next

/-- Member `operator==`: `if (size()!=rhs.size()) return false;` then the loop
over the nodes of `*this`. -/
def LinkedSet.eq (h : Heap T) (this rhs : LinkedSet) : Except Err Bool :=
  if this.size ≠ rhs.size then .ok false
  else
    match load h this.trailer with
    | none => .error .invalidAccess
    | some t => containedLoop h rhs (fuel h) t.next

/-- Member `operator!=`: `return !(*this==rhs)`. -/
def LinkedSet.ne (h : Heap T) (this rhs : LinkedSet) : Except Err Bool :=
  match LinkedSet.eq h this rhs with
  | .error e => .error e
  | .ok b => .ok (!b)

/-- Member `operator<=`: `if (rhs.size()<size()) return false;` then the loop over
the nodes of `*this`. -/
def LinkedSet.le (h : Heap T) (this rhs : LinkedSet) : Except Err Bool :=
  if rhs.size < this.size then .ok false
  else
    match load h this.trailer with
    | none => .error .invalidAccess
    | some t => containedLoop h rhs (fuel h) t.next

/-- Member `operator>=`: `if (rhs.size()>size()) return false;` then the loop over
the nodes of `rhs`. -/
def LinkedSet.ge (h : Heap T) (this rhs : LinkedSet) : Except Err Bool :=
  if rhs.size > this.size then .ok false
  else
    match load h rhs.trailer with
    | none => .error .invalidAccess
    | some t => containedLoop h this (fuel h) t.next

/-- Member `operator<`: `return !(*this>=rhs)`. -/
def LinkedSet.lt (h : Heap T) (this rhs : LinkedSet) : Except Err Bool :=
  match LinkedSet.ge h this rhs with
  | .error e => .error e
  | .ok b => .ok (!b)

/-- Member `operator>`: `return !(*this<=rhs)`. -/
def LinkedSet.gt (h : Heap T) (this rhs : LinkedSet) : Except Err Bool :=
  match LinkedSet.le h this rhs with
  | .error e => .error e
  | .ok b => .ok (!b)

/-- Iterator `operator==`. The `dynamic_cast` of `&rhs` to its own type never
yields null, so `IteratorTypeError` is not thrown; then
`if (ref_set != rhsASI->ref_set) throw ComparingDifferentIteratorsError(...);
return current == rhsASI->current;`. -/
def Iterator.eq (it rhs : Iterator) : Except Err Bool :=
  if it.ref_set ≠ rhs.ref_set then .error .ComparingDifferentIteratorsError
  else .ok (decide (it.current = rhs.current))

/-- Iterator `operator!=`: the same checks, then `return current != rhsASI->current`. -/
def Iterator.ne (it rhs : Iterator) : Except Err Bool :=
  if it.ref_set ≠ rhs.ref_set then .error .ComparingDifferentIteratorsError
  else .ok (decide (it.current ≠ rhs.current))

/-- Iterator `operator*`: `return current->value`. -/
def Iterator.deref (h : Heap T) (it : Iterator) : Except Err T :=
  match load h it.current with
  | none => .error .invalidAccess
  | some c => .ok c.value

/-- The cursor loop `for (; b != e; ++b) visit(*b);` over the set `s`: the values
dereferenced, in order, and the number of advances made. -/
def cursorLoop (h : Heap T) (s : LinkedSet) (e : Iterator) :
    Nat → Iterator → Except Err (List T × Nat)
  | 0, _ => .error .nonTermination
  | n + 1, b =>
    match Iterator.ne b e with
    | .error x => .error x
    | .ok false => .ok ([], 0)
    | .ok true =>
      match Iterator.deref h b with
      | .error x => .error x
      | .ok v =>
        match Iterator.preIncrement h s b with
        | .error x => .error x
        | .ok b1 =>
          match cursorLoop h s e n b1 with
          | .error x => .error x
          | .ok r => .ok (v :: r.1, r.2 + 1)

/-- The cursor traversal of the set object `this`: `b = begin(); e = end();` and
then the cursor loop. -/
def cursorTraversal (h : Heap T) (this : Nat) (s : LinkedSet) : Except Err (List T × Nat) :=
  match LinkedSet.begin h this s with
  | .error x => .error x
  | .ok b =>
    match LinkedSet.end_ h this s with
    | .error x => .error x
    | .ok e => cursorLoop h s e (fuel h) b

/-- The loop of `insert_all(i)` when the iterable `i` is a set object `src` other
than `*this`: the range-based `for (const T& p : i) count += insert(p);`, that is
`for (; b != e; ++b) { p = *b; count += insert(p); }` with the cursors of `src`. -/
def insert_allSetLoop (src : LinkedSet) (e : Iterator) :
    Nat → Heap T → LinkedSet → Int → Iterator → Except Err (Heap T × LinkedSet × Int)
  | 0, _, _, _, _ => .error .nonTermination
  | n + 1, h, s, count, b =>
    match Iterator.ne b e with
    | .error x => .error x
    | .ok false => .ok (h, s, count)
    | .ok true =>
      match Iterator.deref h b with
      | .error x => .error x
      | .ok p =>
        match insert h s p with
        | .error x => .error x
        | .ok (h1, s1, r) =>
          match Iterator.preIncrement h1 src b with
          | .error x => .error x
          | .ok b1 => insert_allSetLoop src e n h1 s1 (count + r) b1

/-- Method `insert_all(i)` with a set object `src` (at address `srcId`) other than
`*this` as the iterable. -/
def insert_allSet (h : Heap T) (s : LinkedSet) (srcId : Nat) (src : LinkedSet) :
    Except Err (Heap T × LinkedSet × Int) :=
  match LinkedSet.begin h srcId src with
  | .error x => .error x
  | .ok b =>
    match LinkedSet.end_ h srcId src with
    | .error x => .error x
    | .ok e => insert_allSetLoop src e (fuel h) h s 0 b

/-- Copy constructor `LinkedSet(const LinkedSet<T>& to_copy) : used(to_copy.used)`
with body `used=0; insert_all(to_copy);`: the default member initialisers of
`front`, `trailer` and `mod_count`, `used` initialised from `to_copy`, then the body. -/
def LinkedSet.copyConstruct (h : Heap T) (to_copyId : Nat) (to_copy : LinkedSet) :
    Except Err (Heap T × LinkedSet) :=
  let r := alloc h ⟨default, none⟩
  let s0 : LinkedSet :=
    { front := some r.2, trailer := some r.2, used := to_copy.used, mod_count := 0 }
  let s1 : LinkedSet := { s0 with used := 0 }
  match insert_allSet r.1 s1 to_copyId to_copy with
  | .error x => .error x
  | .ok (h1, s2, _) => .ok (h1, s2)

/-- The loop of `operator=`:
`for (LN *p = rhs.trailer->next; p != nullptr; p = p->next) insert(p->value);`. -/
def assignLoop : Nat → Heap T → LinkedSet → Ptr → Except Err (Heap T × LinkedSet)
  | _, h, s, none => .ok (h, s)
  | 0, _, _, some _ => .error .nonTermination
  | n + 1, h, s, some a =>
    match load h (some a) with
    | none => .error .invalidAccess
    | some c =>
      match insert h s c.value with
      | .error x => .error x
      | .ok (h1, s1, _) =>
        match load h1 (some a) with
        | none => .error .invalidAccess
        | some c1 => assignLoop n h1 s1 c1.next

/-- Member `operator=`, with `thisId` and `rhsId` the addresses of the two set
objects: `if (this == &rhs) return *this; clear();` then the loop. -/
def LinkedSet.assign (h : Heap T) (thisId : Nat) (this : LinkedSet) (rhsId : Nat)
    (rhs : LinkedSet) : Except Err (Heap T × LinkedSet) :=
  if thisId = rhsId then .ok (h, this)
  else
    let c := clear h this
    match load c.1 rhs.trailer with
    | none => .error .invalidAccess
    | some t => assignLoop (fuel c.1) c.1 c.2 t.next

/-- A call of one of the mutating methods of the set. -/
inductive Op (T : Type) where
  | insert (element : T)
  | erase (element : T)
  | clear
  | insert_all (i : List T)
  | erase_all (i : List T)
  deriving Repr

/-- The state after one call, the returned count being dropped. -/
def step (h : Heap T) (s : LinkedSet) : Op T → Except Err (Heap T × LinkedSet)
  | .insert v =>
    match insert h s v with
    | .error x => .error x
    | .ok (h1, s1, _) => .ok (h1, s1)
  | .erase v =>
    match erase h s v with
    | .error x => .error x
    | .ok (h1, s1, _) => .ok (h1, s1)
  | .clear => .ok (clear h s)
  | .insert_all i =>
    match insert_all h s i with
    | .error x => .error x
    | .ok (h1, s1, _) => .ok (h1, s1)
  | .erase_all i =>
    match erase_all h s i with
    | .error x => .error x
    | .ok (h1, s1, _) => .ok (h1, s1)

/-- The state after a sequence of calls, made one after the other. -/
def run (h : Heap T) (s : LinkedSet) : List (Op T) → Except Err (Heap T × LinkedSet)
  | [] => .ok (h, s)
  | op :: ops =>
    match step h s op with
    | .error x => .error x
    | .ok (h1, s1) => run h1 s1 ops

/-- The calls of a sequence of `insert`, `erase` and `clear` only. -/
def Op.basic : Op T → Bool
  | .insert _ => true
  | .erase _ => true
  | .clear => true
  | _ => false

/-- The invariant kept by every call that returns: the header and the cells `cs`
form a null-terminated chain, `used` is the number of cells after the header, no
value occurs twice, and `front` either designates the last cell of the chain or
is a stale pointer to a deleted cell. -/
def Inv (h : Heap T) (s : LinkedSet) (cs : List (Nat × T)) : Prop :=
  (∃ t tv, s.trailer = some t ∧ Seg h (some t) ((t, tv) :: cs) none ∧
    (s.front = lastPtr (some t) cs ∨
      ∃ a, s.front = some a ∧ a < h.length ∧ load h (some a) = none)) ∧
  s.used = (cs.length : Int) ∧ (cs.map Prod.snd).Nodup

/-- The set `c` in the arena `h1` is a copy of the set `s` of the arena `h`: `s` has
the same chain in `h1` as in `h`, the chain of `c` holds the same values in the
same order, the sizes agree, `c == s` holds, no node (header or cell) of `c` is
a node of `s`, and every cell of the arena `h` is unchanged in `h1`. -/
def CopyOf (h : Heap T) (s : LinkedSet) (h1 : Heap T) (c : LinkedSet) : Prop :=
  ∃ cs cc ts tc, nodes h s = .ok cs ∧ nodes h1 s = .ok cs ∧ nodes h1 c = .ok cc ∧
    cc.map Prod.snd = cs.map Prod.snd ∧ c.size = s.size ∧
    LinkedSet.eq h1 c s = .ok true ∧
    s.trailer = some ts ∧ c.trailer = some tc ∧
    List.Disjoint (tc :: cc.map Prod.fst) (ts :: cs.map Prod.fst) ∧
    ∀ a, a < h.length → load h1 (some a) = load h (some a)

/-- The arena `arena12` with a second set built after the first: cell 3 is its
header, cells 4 and 5 hold the values 2 and 1 (inserted in that order). -/
def arenaTwo : Heap Int :=
  arena12 ++ [some ⟨0, some 4⟩, some ⟨2, some 5⟩, some ⟨1, none⟩]

/-- The data members of the set `{2,1}` that lives in `arenaTwo`. -/
def set21 : LinkedSet := { front := some 5, trailer := some 3, used := 2, mod_count := 0 }

/-- A sequence of calls that erases the last node, clears, and goes on. -/
def callsExample : List (Op Int) :=
  [.insert 1, .insert 2, .erase 2, .erase_all [5], .clear, .insert_all [3, 3, 4], .erase 3]

/-- The arena that `callsExample` leaves when run on a set constructed in an empty
arena. -/
def arenaAfterCalls : Heap Int :=
  [some ⟨0, some 1⟩, some ⟨1, none⟩, none, some ⟨0, some 5⟩, none, some ⟨4, none⟩]

/-- The data members that `callsExample` leaves. -/
def setAfterCalls : LinkedSet := { front := some 5, trailer := some 3, used := 1, mod_count := 0 }

/-- Method `insert(element)` as it runs when the storage of a deleted node is still
addressable (the usual outcome of the undefined behaviour that `insert` reads as
`Err.invalidAccess`). The statements are those of `insert`; the one difference
is the case where `front` holds the address of a deleted cell of the arena:
there `front->next = new LN(element)` stores into the dead storage and changes
no live cell, `front = front->next` reads back the pointer just stored, and
`used += 1; return 1;` follow. A null `front` or one outside the arena is still
an invalid access. -/
def insertRaw (h : Heap T) (s : LinkedSet) (element : T) :
    Except Err (Heap T × LinkedSet × Int) :=
  match contains h s element with
  | .error e => .error e
  | .ok true => .ok (h, s, 0)
  | .ok false =>
    let r := alloc h ⟨element, none⟩
    match s.front with
    | none => .error .invalidAccess
    | some fa =>
      match r.1[fa]? with
      | none => .error .invalidAccess
      | some none => .ok (r.1, { s with front := some r.2, used := s.used + 1 }, 1)
      | some (some f) =>
        let h2 := setNext r.1 fa f (some r.2)
        match load h2 (some fa) with
        | none => .error .invalidAccess
        | some f2 => .ok (h2, { s with front := f2.next, used := s.used + 1 }, 1)

/-- The loop of `insert_all` with `insertRaw` for the calls of `insert`. -/
def insert_allLoopRaw (h : Heap T) (s : LinkedSet) (count : Int) :
    List T → Except Err (Heap T × LinkedSet × Int)
  | [] => .ok (h, s, count)
  | p :: ps =>
    match insertRaw h s p with
    | .error e => .error e
    | .ok (h1, s1, r) => insert_allLoopRaw h1 s1 (count + r) ps

/-- The state after one call, as `step`, with `insertRaw` for the calls of `insert`
(those of `insert_all` included). -/
def stepRaw (h : Heap T) (s : LinkedSet) : Op T → Except Err (Heap T × LinkedSet)
  | .insert v =>
    match insertRaw h s v with
    | .error x => .error x
    | .ok (h1, s1, _) => .ok (h1, s1)
  | .erase v =>
    match erase h s v with
    | .error x => .error x
    | .ok (h1, s1, _) => .ok (h1, s1)
  | .clear => .ok (clear h s)
  | .insert_all i =>
    match insert_allLoopRaw h s 0 i with
    | .error x => .error x
    | .ok (h1, s1, _) => .ok (h1, s1)
  | .erase_all i =>
    match erase_all h s i with
    | .error x => .error x
    | .ok (h1, s1, _) => .ok (h1, s1)

/-- The state after a sequence of calls, as `run`, on `stepRaw`. -/
def runRaw (h : Heap T) (s : LinkedSet) : List (Op T) → Except Err (Heap T × LinkedSet)
  | [] => .ok (h, s)
  | op :: ops =>
    match stepRaw h s op with
    | .error x => .error x
    | .ok (h1, s1) => runRaw h1 s1 ops

theorem load_some_iff {h : Heap T} {a : Nat} {c : LN T} :
    load h (some a) = some c ↔ h[a]? = some (some c) := by
  simp only [load]
  split <;> rename_i hx <;> simp [hx]

theorem load_lt {h : Heap T} {a : Nat} {c : LN T} (hl : load h (some a) = some c) :
    a < h.length := by
  rw [load_some_iff] at hl
  by_contra hc
  rw [List.getElem?_eq_none (by omega)] at hl
  cases hl

theorem load_append_of_lt {h : Heap T} (l : Heap T) {a : Nat} (ha : a < h.length) :
    load (h ++ l) (some a) = load h (some a) := by
  simp [load, List.getElem?_append_left ha]

theorem load_append_new (h : Heap T) (c : LN T) :
    load (h ++ [some c]) (some h.length) = some c := by
  simp [load]

theorem load_set_same {h : Heap T} {a : Nat} (x : Option (LN T)) (ha : a < h.length) :
    load (h.set a x) (some a) = x := by
  simp [load, List.getElem?_set_self ha]

theorem load_set_ne {h : Heap T} {a b : Nat} (x : Option (LN T)) (hab : a ≠ b) :
    load (h.set a x) (some b) = load h (some b) := by
  simp [load, List.getElem?_set_ne hab]

/-! ## List segments -/

theorem Seg.frame {h h' : Heap T} {p q : Ptr} {cs : List (Nat × T)}
    (hs : Seg h p cs q)
    (hf : ∀ a ∈ cs.map Prod.fst, load h' (some a) = load h (some a)) :
    Seg h' p cs q := by
  induction cs generalizing p with
  | nil => exact hs
  | cons c cs ih =>
    obtain ⟨hp, nx, hl, hrest⟩ := hs
    refine ⟨hp, nx, ?_, ih hrest ?_⟩
    · rw [hf c.1 (by simp)]; exact hl
    · intro a ha
      exact hf a (by simp only [List.map_cons, List.mem_cons]; exact Or.inr ha)

theorem Seg.append {h : Heap T} {p m q : Ptr} {xs ys : List (Nat × T)}
    (h1 : Seg h p xs m) (h2 : Seg h m ys q) : Seg h p (xs ++ ys) q := by
  induction xs generalizing p with
  | nil =>
    have hpm : p = m := h1
    subst hpm
    exact h2
  | cons c cs ih =>
    obtain ⟨hp, nx, hl, hrest⟩ := h1
    exact ⟨hp, nx, hl, ih hrest⟩

theorem Seg.split {h : Heap T} {p q : Ptr} {xs ys : List (Nat × T)}
    (hs : Seg h p (xs ++ ys) q) : ∃ m, Seg h p xs m ∧ Seg h m ys q := by
  induction xs generalizing p with
  | nil => exact ⟨p, rfl, hs⟩
  | cons c cs ih =>
    obtain ⟨hp, nx, hl, hrest⟩ := hs
    obtain ⟨m, hm1, hm2⟩ := ih hrest
    exact ⟨m, ⟨hp, nx, hl, hm1⟩, hm2⟩

theorem Seg.addr_lt {h : Heap T} {p q : Ptr} {cs : List (Nat × T)}
    (hs : Seg h p cs q) : ∀ a ∈ cs.map Prod.fst, a < h.length := by
  induction cs generalizing p with
  | nil => intro a ha; simp at ha
  | cons c cs ih =>
    obtain ⟨hp, nx, hl, hrest⟩ := hs
    intro a ha
    simp only [List.map_cons, List.mem_cons] at ha
    rcases ha with rfl | ha
    · exact load_lt hl
    · exact ih hrest a ha

theorem Seg.unique {h : Heap T} {p : Ptr} {cs ds : List (Nat × T)}
    (h1 : Seg h p cs none) (h2 : Seg h p ds none) : cs = ds := by
  induction cs generalizing p ds with
  | nil =>
    have hp : p = none := h1
    subst hp
    cases ds with
    | nil => rfl
    | cons d ds => exact absurd h2.1 (by simp)
  | cons c cs ih =>
    obtain ⟨hp, nx, hl, hrest⟩ := h1
    cases ds with
    | nil =>
      have hq : p = none := h2
      rw [hq] at hp
      cases hp
    | cons d ds =>
      obtain ⟨hp2, nx2, hl2, hrest2⟩ := h2
      have hcd : c.1 = d.1 := by
        rw [hp] at hp2
        exact Option.some.inj hp2
      rw [← hcd, hl] at hl2
      have hinj := Option.some.inj hl2
      have hv : c.2 = d.2 := congrArg LN.value hinj
      have hn : nx = nx2 := congrArg LN.next hinj
      subst hn
      have hcs := ih hrest hrest2
      subst hcs
      have : c = d := Prod.ext hcd hv
      rw [this]

theorem Seg.nodup {h : Heap T} {p : Ptr} {cs : List (Nat × T)}
    (hs : Seg h p cs none) : (cs.map Prod.fst).Nodup := by
  induction cs generalizing p with
  | nil => simp
  | cons c cs ih =>
    have hall := hs
    obtain ⟨hp, nx, hl, hrest⟩ := hs
    simp only [List.map_cons, List.nodup_cons]
    refine ⟨?_, ih hrest⟩
    intro hmem
    obtain ⟨d, hd, hdc⟩ := List.mem_map.mp hmem
    obtain ⟨l1, l2, hsplit⟩ := List.append_of_mem hd
    rw [hsplit] at hrest hall
    obtain ⟨m, _, hm2⟩ := Seg.split hrest
    have hm : m = p := by
      rw [hm2.1, hp, hdc]
    rw [hm] at hm2
    have hlen := congrArg List.length (Seg.unique hall hm2)
    simp at hlen
    omega

theorem Seg.length_le {h : Heap T} {p : Ptr} {cs : List (Nat × T)}
    (hs : Seg h p cs none) : cs.length ≤ h.length := by
  have hnd := Seg.nodup hs
  have hlt := Seg.addr_lt hs
  have hsub : (cs.map Prod.fst).toFinset ⊆ Finset.range h.length := by
    intro a ha
    rw [List.mem_toFinset] at ha
    exact Finset.mem_range.mpr (hlt a ha)
  have hcard := Finset.card_le_card hsub
  rw [List.toFinset_card_of_nodup hnd, Finset.card_range, List.length_map] at hcard
  exact hcard

/-! ## The loops on a segment -/

theorem walk_of_seg {h : Heap T} {p : Ptr} {cs : List (Nat × T)} {n : Nat}
    (hs : Seg h p cs none) (hn : cs.length ≤ n) : walk h n p = .ok cs := by
  induction cs generalizing p n with
  | nil =>
    have hp : p = none := hs
    subst hp
    cases n <;> rfl
  | cons c cs ih =>
    obtain ⟨hp, nx, hl, hrest⟩ := hs
    subst hp
    cases n with
    | zero => simp at hn
    | succ n =>
      have hn2 : cs.length ≤ n := by simpa using hn
      simp only [walk, hl, ih hrest hn2]

theorem seg_of_walk {h : Heap T} {p : Ptr} {cs : List (Nat × T)} {n : Nat}
    (hw : walk h n p = .ok cs) : Seg h p cs none := by
  induction n generalizing p cs with
  | zero =>
    cases p with
    | none =>
      simp only [walk, Except.ok.injEq] at hw
      subst hw
      rfl
    | some a => simp [walk] at hw
  | succ n ih =>
    cases p with
    | none =>
      simp only [walk, Except.ok.injEq] at hw
      subst hw
      rfl
    | some a =>
      simp only [walk] at hw
      cases hl : load h (some a) with
      | none => simp [hl] at hw
      | some c =>
        simp only [hl] at hw
        cases hr : walk h n c.next with
        | error e => simp [hr] at hw
        | ok ds =>
          simp only [hr, Except.ok.injEq] at hw
          subst hw
          exact ⟨rfl, c.next, hl, ih hr⟩

theorem containsLoop_of_seg {h : Heap T} {p : Ptr} {cs : List (Nat × T)} {n : Nat} (v : T)
    (hs : Seg h p cs none) (hn : cs.length ≤ n) :
    containsLoop h v n p = .ok (decide (v ∈ cs.map Prod.snd)) := by
  induction cs generalizing p n with
  | nil =>
    have hp : p = none := hs
    subst hp
    cases n <;> simp [containsLoop]
  | cons c cs ih =>
    obtain ⟨hp, nx, hl, hrest⟩ := hs
    subst hp
    cases n with
    | zero => simp at hn
    | succ n =>
      have hn2 : cs.length ≤ n := by simpa using hn
      simp only [containsLoop, hl]
      by_cases hv : c.2 = v
      · simp [hv]
      · have hv2 : ¬ v = c.2 := fun e => hv e.symm
        simp [hv, hv2, ih hrest hn2]

theorem seg_of_containsLoop {h : Heap T} {p : Ptr} {n : Nat} {v : T}
    (hc : containsLoop h v n p = .ok false) :
    ∃ cs, Seg h p cs none ∧ v ∉ cs.map Prod.snd := by
  induction n generalizing p with
  | zero =>
    cases p with
    | none => exact ⟨[], rfl, by simp⟩
    | some a => simp [containsLoop] at hc
  | succ n ih =>
    cases p with
    | none => exact ⟨[], rfl, by simp⟩
    | some a =>
      simp only [containsLoop] at hc
      cases hl : load h (some a) with
      | none => simp [hl] at hc
      | some c =>
        simp only [hl] at hc
        by_cases hv : c.value = v
        · simp [hv] at hc
        · simp only [hv, if_false] at hc
          obtain ⟨cs, hcs, hnot⟩ := ih hc
          refine ⟨(a, c.value) :: cs, ⟨rfl, c.next, hl, hcs⟩, ?_⟩
          simp only [List.map_cons, List.mem_cons, not_or]
          exact ⟨fun e => hv e.symm, hnot⟩

/-! ## The chain of a set -/

theorem nodes_of_seg {h : Heap T} {s : LinkedSet} {t : Nat} {tv : T} {cs : List (Nat × T)}
    (ht : s.trailer = some t) (hs : Seg h (some t) ((t, tv) :: cs) none) :
    nodes h s = .ok cs := by
  obtain ⟨_, nx, hl, hrest⟩ := hs
  have hlen := Seg.length_le hrest
  simp only [nodes, ht, hl]
  exact walk_of_seg hrest (by simp only [fuel]; omega)

theorem seg_of_nodes {h : Heap T} {s : LinkedSet} {cs : List (Nat × T)}
    (hn : nodes h s = .ok cs) :
    ∃ t tv, s.trailer = some t ∧ Seg h (some t) ((t, tv) :: cs) none := by
  unfold nodes at hn
  cases ht : s.trailer with
  | none => simp [ht, load] at hn
  | some t =>
    rw [ht] at hn
    cases hl : load h (some t) with
    | none => simp [hl] at hn
    | some c =>
      simp only [hl] at hn
      exact ⟨t, c.value, rfl, rfl, c.next, hl, seg_of_walk hn⟩

theorem contains_of_seg {h : Heap T} {s : LinkedSet} {t : Nat} {tv : T} {cs : List (Nat × T)}
    (ht : s.trailer = some t) (hs : Seg h (some t) ((t, tv) :: cs) none) (v : T) :
    contains h s v = .ok (decide (v ∈ cs.map Prod.snd)) := by
  obtain ⟨_, nx, hl, hrest⟩ := hs
  have hlen := Seg.length_le hrest
  simp only [contains, ht, hl]
  exact containsLoop_of_seg v hrest (by simp only [fuel]; omega)

theorem traversal_of_nodes {h : Heap T} {s : LinkedSet} {cs : List (Nat × T)}
    (hn : nodes h s = .ok cs) : traversal h s = .ok (cs.map Prod.snd) := by
  simp only [traversal, hn]

theorem nodes_of_traversal {h : Heap T} {s : LinkedSet} {l : List T}
    (ht : traversal h s = .ok l) : ∃ cs, nodes h s = .ok cs ∧ cs.map Prod.snd = l := by
  unfold traversal at ht
  cases hn : nodes h s with
  | error e => simp [hn] at ht
  | ok cs =>
    simp only [hn, Except.ok.injEq] at ht
    exact ⟨cs, rfl, ht⟩

theorem Good.nodes {h : Heap T} {s : LinkedSet} {cs : List (Nat × T)} (hg : Good h s cs) :
    nodes h s = .ok cs := by
  obtain ⟨t, tv, ht, hs, _, _⟩ := hg
  exact nodes_of_seg ht hs

theorem Good.traversal {h : Heap T} {s : LinkedSet} {cs : List (Nat × T)} (hg : Good h s cs) :
    traversal h s = .ok (cs.map Prod.snd) :=
  traversal_of_nodes hg.nodes

theorem Good.contains {h : Heap T} {s : LinkedSet} {cs : List (Nat × T)} (hg : Good h s cs)
    (v : T) : contains h s v = .ok (decide (v ∈ cs.map Prod.snd)) := by
  obtain ⟨t, tv, ht, hs, _, _⟩ := hg
  exact contains_of_seg ht hs v

theorem Good.consistent {h : Heap T} {s : LinkedSet} {cs : List (Nat × T)} (hg : Good h s cs) :
    Consistent h s := by
  have hn := hg.nodes
  obtain ⟨t, tv, ht, hs, hf, hu⟩ := hg
  exact ⟨cs, hn, by rw [ht]; exact hf, hu⟩

theorem Consistent.good {h : Heap T} {s : LinkedSet} (hc : Consistent h s) :
    ∃ cs, Good h s cs := by
  obtain ⟨cs, hn, hf, hu⟩ := hc
  obtain ⟨t, tv, ht, hs⟩ := seg_of_nodes hn
  exact ⟨cs, t, tv, ht, hs, by rw [← ht]; exact hf, hu⟩

/-- A non-empty chain ends in the cell that `lastPtr` designates. -/
theorem last_decomp (t : Nat) (tv : T) (cs : List (Nat × T)) :
    ∃ pre last, (t, tv) :: cs = pre ++ [last] ∧ lastPtr (some t) cs = some last.1 := by
  rcases List.eq_nil_or_concat cs with rfl | ⟨L, b, hcs⟩
  · exact ⟨[], (t, tv), rfl, rfl⟩
  · rw [List.concat_eq_append] at hcs
    subst hcs
    exact ⟨(t, tv) :: L, b, rfl, by simp [lastPtr]⟩

theorem lastPtr_concat (t : Ptr) (cs : List (Nat × T)) (c : Nat × T) :
    lastPtr t (cs ++ [c]) = some c.1 := by
  simp [lastPtr]

/-! ## insert -/

theorem insert_of_contains {h : Heap T} {s : LinkedSet} {v : T}
    (hc : contains h s v = .ok true) : insert h s v = .ok (h, s, 0) := by
  simp only [insert, hc]

theorem insert_new {h : Heap T} {s : LinkedSet} {cs : List (Nat × T)} {v : T}
    (hg : Good h s cs) (hv : v ∉ cs.map Prod.snd) :
    ∃ h' s', insert h s v = .ok (h', s', 1) ∧ Good h' s' (cs ++ [(h.length, v)]) ∧
      s'.front = some h.length ∧ s'.trailer = s.trailer ∧ s'.used = s.used + 1 ∧
      s'.mod_count = s.mod_count ∧ h'.length = h.length + 1 ∧
      ∀ a, a < h.length → some a ≠ s.front → load h' (some a) = load h (some a) := by
  have hcont := hg.contains v
  obtain ⟨t, tv, ht, hs, hf, hu⟩ := hg
  obtain ⟨pre, last, hfull, hlast⟩ := last_decomp t tv cs
  have hnd := Seg.nodup hs
  rw [hfull] at hs hnd
  obtain ⟨m, hpre, hm⟩ := Seg.split hs
  obtain ⟨hm1, nx, hl, hnx⟩ := hm
  have hnx2 : nx = none := hnx
  subst hnx2
  have hfa : last.1 < h.length := load_lt hl
  have hfront : s.front = some last.1 := by rw [hf, hlast]
  have hnotpre : last.1 ∉ pre.map Prod.fst := by
    rw [List.map_append, List.nodup_append] at hnd
    intro hmem
    exact hnd.2.2 hmem (by simp)
  have hl1 : load (h ++ [some (⟨v, none⟩ : LN T)]) (some last.1) = some ⟨last.2, none⟩ := by
    rw [load_append_of_lt _ hfa]; exact hl
  have hfa1 : last.1 < (h ++ [some (⟨v, none⟩ : LN T)]).length := by
    simp only [List.length_append, List.length_singleton]; omega
  have hl2 : load ((h ++ [some (⟨v, none⟩ : LN T)]).set last.1
      (some ⟨last.2, some h.length⟩)) (some last.1) = some ⟨last.2, some h.length⟩ :=
    load_set_same _ hfa1
  have hdec : decide (v ∈ cs.map Prod.snd) = false := by simpa using hv
  rw [hdec] at hcont
  refine ⟨(h ++ [some (⟨v, none⟩ : LN T)]).set last.1 (some ⟨last.2, some h.length⟩),
    { s with front := some h.length, used := s.used + 1 }, ?_, ?_, rfl, rfl, rfl, rfl, ?_, ?_⟩
  · simp only [insert, hcont, alloc, hfront, hl1, setNext, hl2]
  · refine ⟨t, tv, ht, ?_, ?_, ?_⟩
    · have hlist : (t, tv) :: (cs ++ [(h.length, v)]) = pre ++ [last, (h.length, v)] := by
        rw [← List.cons_append, hfull]; simp
      rw [hlist]
      refine Seg.append (m := some last.1) ?_ ?_
      · rw [hm1] at hpre
        refine Seg.frame hpre ?_
        intro a ha
        have hne : last.1 ≠ a := fun e => hnotpre (e ▸ ha)
        rw [load_set_ne _ hne, load_append_of_lt _ (Seg.addr_lt hpre a ha)]
      · refine ⟨rfl, some h.length, hl2, rfl, none, ?_, rfl⟩
        have hne : last.1 ≠ h.length := by omega
        show load _ (some h.length) = _
        rw [load_set_ne _ hne, load_append_new]
    · exact (lastPtr_concat _ cs (h.length, v)).symm
    · show s.used + 1 = _
      rw [hu]; simp
  · simp
  · intro a ha hne
    have hne2 : last.1 ≠ a := by
      intro e
      apply hne
      rw [hfront, e]
    rw [load_set_ne _ hne2, load_append_of_lt _ ha]

theorem insert_old {h : Heap T} {s : LinkedSet} {cs : List (Nat × T)} {v : T}
    (hg : Good h s cs) (hv : v ∈ cs.map Prod.snd) : insert h s v = .ok (h, s, 0) := by
  apply insert_of_contains
  rw [hg.contains v]
  simp [hv]

/-! ## erase -/

theorem eraseLoop_absent {h : Heap T} {s : LinkedSet} {v : T} {cs : List (Nat × T)}
    {p : Nat} {pv : T} {n : Nat}
    (hs : Seg h (some p) ((p, pv) :: cs) none) (hv : v ∉ cs.map Prod.snd)
    (hn : cs.length + 1 ≤ n) : eraseLoop h s v n p = .ok (h, s, 0) := by
  induction cs generalizing p pv n with
  | nil =>
    obtain ⟨_, nx, hl, hnx⟩ := hs
    have hnx2 : nx = none := hnx
    subst hnx2
    cases n with
    | zero => simp at hn
    | succ n => simp only [eraseLoop, hl]
  | cons c cs ih =>
    obtain ⟨q, qv⟩ := c
    obtain ⟨_, nx, hl, hrest⟩ := hs
    have hnx : nx = some q := hrest.1
    subst hnx
    have hrest0 := hrest
    obtain ⟨_, nx2, hl2, _⟩ := hrest
    simp only [List.map_cons, List.mem_cons, not_or] at hv
    cases n with
    | zero => simp at hn
    | succ n =>
      have hne : ¬ qv = v := fun e => hv.1 e.symm
      have hn2 : cs.length + 1 ≤ n := by simpa using hn
      simp only [eraseLoop, hl, hl2, hne, if_false]
      exact ih hrest0 hv.2 hn2

theorem eraseLoop_present {h : Heap T} {s : LinkedSet} {v : T} {cs : List (Nat × T)}
    {p : Nat} {pv : T} {n : Nat}
    (hs : Seg h (some p) ((p, pv) :: cs) none) (hv : v ∈ cs.map Prod.snd)
    (hn : cs.length + 1 ≤ n) :
    ∃ h', eraseLoop h s v n p = .ok (h', { s with used := s.used - 1 }, 1) ∧
      h'.length = h.length ∧
      Seg h' (some p) ((p, pv) :: cs.eraseP (fun c => decide (c.2 = v))) none ∧
      (∀ a, a ∉ p :: cs.map Prod.fst → load h' (some a) = load h (some a)) ∧
      (∀ a ∈ cs.map Prod.fst, a ∉ (cs.eraseP (fun c => decide (c.2 = v))).map Prod.fst →
        load h' (some a) = none) := by
  induction cs generalizing p pv n with
  | nil => simp at hv
  | cons c cs ih =>
    obtain ⟨q, qv⟩ := c
    have hnd := Seg.nodup hs
    simp only [List.map_cons, List.nodup_cons, List.mem_cons, not_or] at hnd
    obtain ⟨⟨hpq, hpcs⟩, hqcs, _⟩ := hnd
    obtain ⟨_, nx, hl, hrest⟩ := hs
    have hnx : nx = some q := hrest.1
    subst hnx
    have hrest0 := hrest
    obtain ⟨_, nx2, hl2, htail⟩ := hrest
    have hp : p < h.length := load_lt hl
    have hq : q < h.length := load_lt hl2
    cases n with
    | zero => simp at hn
    | succ n =>
      by_cases hqv : qv = v
      · refine ⟨(h.set p (some ⟨pv, nx2⟩)).set q none, ?_, by simp, ?_, ?_, ?_⟩
        · simp only [eraseLoop, hl, hl2, hqv, if_true, free, setNext]
        · rw [List.eraseP_cons_of_pos (by simpa using hqv)]
          refine ⟨rfl, nx2, ?_, ?_⟩
          · show load _ (some p) = _
            rw [load_set_ne _ (Ne.symm hpq), load_set_same _ hp]
          · refine Seg.frame htail ?_
            intro a ha
            have h1 : q ≠ a := fun e => hqcs (e ▸ ha)
            have h2 : p ≠ a := fun e => hpcs (e ▸ ha)
            rw [load_set_ne _ h1, load_set_ne _ h2]
        · intro a ha
          simp only [List.map_cons, List.mem_cons, not_or] at ha
          rw [load_set_ne _ (Ne.symm ha.2.1), load_set_ne _ (Ne.symm ha.1)]
        · intro a ha hna
          rw [List.eraseP_cons_of_pos (by simpa using hqv)] at hna
          simp only [List.map_cons, List.mem_cons] at ha
          rcases ha with rfl | ha
          · exact load_set_same _ (by rw [List.length_set]; exact hq)
          · exact absurd ha hna
      · have hv2 : v ∈ cs.map Prod.snd := by
          simp only [List.map_cons, List.mem_cons] at hv
          rcases hv with e | hv
          · exact absurd e.symm hqv
          · exact hv
        have hn2 : cs.length + 1 ≤ n := by simpa using hn
        obtain ⟨h', hrun, hlen, hseg, hframe, hfreed⟩ := ih hrest0 hv2 hn2
        refine ⟨h', ?_, hlen, ?_, ?_, ?_⟩
        · simp only [eraseLoop, hl, hl2, hqv, if_false]
          exact hrun
        · rw [List.eraseP_cons_of_neg (by simpa using hqv)]
          refine ⟨rfl, some q, ?_, hseg⟩
          show load h' (some p) = _
          rw [hframe p (by simp only [List.mem_cons, not_or]; exact ⟨hpq, hpcs⟩)]
          exact hl
        · intro a ha
          simp only [List.map_cons, List.mem_cons, not_or] at ha
          exact hframe a (by simp only [List.mem_cons, not_or]; exact ha.2)
        · intro a ha hna
          rw [List.eraseP_cons_of_neg (by simpa using hqv)] at hna
          simp only [List.map_cons, List.mem_cons, not_or] at ha hna
          rcases ha with e | ha
          · exact absurd e hna.1
          · exact hfreed a ha hna.2

theorem map_snd_eraseP (cs : List (Nat × T)) (v : T) :
    (cs.eraseP (fun c => decide (c.2 = v))).map Prod.snd = (cs.map Prod.snd).erase v := by
  induction cs with
  | nil => rfl
  | cons c cs ih =>
    by_cases hc : c.2 = v
    · rw [List.eraseP_cons_of_pos (by simpa using hc)]
      simp [hc]
    · rw [List.eraseP_cons_of_neg (by simpa using hc)]
      simp [hc, ih]

theorem erase_absent {h : Heap T} {s : LinkedSet} {t : Nat} {tv : T} {cs : List (Nat × T)}
    {v : T} (ht : s.trailer = some t) (hs : Seg h (some t) ((t, tv) :: cs) none)
    (hv : v ∉ cs.map Prod.snd) : erase h s v = .ok (h, s, 0) := by
  have hlen : cs.length + 1 ≤ h.length := Seg.length_le hs
  have he : erase h s v = eraseLoop h s v (fuel h) t := by simp only [erase, ht]
  rw [he]
  exact eraseLoop_absent hs hv (show cs.length + 1 ≤ fuel h by simp only [fuel]; omega)

theorem erase_present {h : Heap T} {s : LinkedSet} {t : Nat} {tv : T} {cs : List (Nat × T)}
    {v : T} (ht : s.trailer = some t) (hs : Seg h (some t) ((t, tv) :: cs) none)
    (hv : v ∈ cs.map Prod.snd) :
    ∃ h', erase h s v = .ok (h', { s with used := s.used - 1 }, 1) ∧
      h'.length = h.length ∧
      Seg h' (some t) ((t, tv) :: cs.eraseP (fun c => decide (c.2 = v))) none ∧
      (∀ a, a ∉ t :: cs.map Prod.fst → load h' (some a) = load h (some a)) ∧
      (∀ a ∈ cs.map Prod.fst, a ∉ (cs.eraseP (fun c => decide (c.2 = v))).map Prod.fst →
        load h' (some a) = none) := by
  have hlen : cs.length + 1 ≤ h.length := Seg.length_le hs
  have he : erase h s v = eraseLoop h s v (fuel h) t := by simp only [erase, ht]
  rw [he]
  exact eraseLoop_present hs hv (show cs.length + 1 ≤ fuel h by simp only [fuel]; omega)

/-! ## First occurrences -/

theorem mem_firstOccurrences (l : List T) (x : T) : x ∈ firstOccurrences l ↔ x ∈ l := by
  induction l with
  | nil => simp [firstOccurrences]
  | cons y ys ih =>
    simp only [firstOccurrences, List.mem_cons, List.mem_filter, ih, decide_eq_true_eq]
    constructor
    · rintro (e | ⟨hm, _⟩)
      · exact Or.inl e
      · exact Or.inr hm
    · rintro (e | hm)
      · exact Or.inl e
      · by_cases hxy : x = y
        · exact Or.inl hxy
        · exact Or.inr ⟨hm, hxy⟩

theorem firstOccurrences_nodup (l : List T) : (firstOccurrences l).Nodup := by
  induction l with
  | nil => simp [firstOccurrences]
  | cons y ys ih =>
    simp only [firstOccurrences, List.nodup_cons, List.mem_filter, decide_eq_true_eq]
    exact ⟨fun hc => hc.2 rfl, ih.filter _⟩

theorem firstOccurrences_filter (l : List T) (p : T → Bool) :
    firstOccurrences (l.filter p) = (firstOccurrences l).filter p := by
  induction l with
  | nil => simp [firstOccurrences]
  | cons y ys ih =>
    by_cases hp : p y = true
    · rw [List.filter_cons_of_pos hp]
      simp only [firstOccurrences, ih]
      rw [List.filter_cons_of_pos hp, List.filter_filter, List.filter_filter]
      congr 1
      apply List.filter_congr
      intro x _
      exact Bool.and_comm _ _
    · rw [List.filter_cons_of_neg hp]
      simp only [firstOccurrences, ih]
      rw [List.filter_cons_of_neg hp, List.filter_filter]
      apply List.filter_congr
      intro x _
      by_cases hxy : x = y
      · subst hxy
        simp [hp]
      · simp [hxy]

theorem firstOccurrences_length (l : List T) :
    (firstOccurrences l).length = l.dedup.length := by
  apply List.Perm.length_eq
  rw [List.perm_ext_iff_of_nodup (firstOccurrences_nodup l) (List.nodup_dedup l)]
  intro x
  rw [mem_firstOccurrences, List.mem_dedup]

/-! ## insert_all -/

theorem insert_allLoop_good {h : Heap T} {s : LinkedSet} {cs : List (Nat × T)}
    (seq : List T) (k : Int) (hg : Good h s cs) :
    ∃ h' s' ds, insert_allLoop h s k seq = .ok (h', s', k + (ds.length : Int)) ∧
      Good h' s' (cs ++ ds) ∧
      ds.map Prod.snd =
        firstOccurrences (seq.filter (fun x => decide (x ∉ cs.map Prod.snd))) ∧
      s'.trailer = s.trailer ∧ s'.mod_count = s.mod_count ∧
      s'.used = s.used + (ds.length : Int) := by
  induction seq generalizing h s cs k with
  | nil =>
    refine ⟨h, s, [], ?_, ?_, ?_, rfl, rfl, ?_⟩
    · simp [insert_allLoop]
    · simpa using hg
    · simp [firstOccurrences]
    · simp
  | cons x xs ih =>
    by_cases hx : x ∈ cs.map Prod.snd
    · obtain ⟨h', s', ds, hrun, hgood, hvals, htr, hmc, hus⟩ := ih (k + 0) hg
      refine ⟨h', s', ds, ?_, hgood, ?_, htr, hmc, hus⟩
      · simp only [insert_allLoop, insert_old hg hx]
        rw [hrun]; simp
      · rw [hvals, List.filter_cons_of_neg (by simpa using hx)]
    · obtain ⟨h1, s1, hins, hg1, _, htr1, hus1, hmc1, _, _⟩ := insert_new hg hx
      obtain ⟨h', s', ds, hrun, hgood, hvals, htr, hmc, hus⟩ := ih (k + 1) hg1
      refine ⟨h', s', (h.length, x) :: ds, ?_, ?_, ?_, ?_, ?_, ?_⟩
      · simp only [insert_allLoop, hins]
        rw [hrun]
        simp only [List.length_cons]
        push_cast
        congr 3
        ring
      · simpa using hgood
      · rw [List.filter_cons_of_pos (by simpa using hx)]
        simp only [List.map_cons, firstOccurrences]
        rw [hvals, ← firstOccurrences_filter, List.filter_filter]
        congr 2
        apply List.filter_congr
        intro y _
        simp only [List.map_append, List.map_cons, List.map_nil, List.mem_append,
          List.mem_singleton, not_or]
        by_cases hy : y ∈ cs.map Prod.snd <;> by_cases hyx : y = x <;> simp [hy, hyx]
      · rw [htr, htr1]
      · rw [hmc, hmc1]
      · rw [hus, hus1]
        simp only [List.length_cons]
        push_cast
        ring

/-! ## The freshly constructed set -/

theorem construct_good (h0 : Heap T) :
    Good (LinkedSet.construct h0).1 (LinkedSet.construct h0).2 ([] : List (Nat × T)) := by
  refine ⟨h0.length, default, rfl, ⟨rfl, none, ?_, rfl⟩, rfl, rfl⟩
  exact load_append_new h0 _

theorem clear_good (h : Heap T) (s : LinkedSet) :
    Good (clear h s).1 (clear h s).2 ([] : List (Nat × T)) := by
  refine ⟨h.length, default, rfl, ⟨rfl, none, ?_, rfl⟩, rfl, rfl⟩
  exact load_append_new h _

/-! ## The modification counter -/

theorem insert_mod_count {h h' : Heap T} {s s' : LinkedSet} {v : T} {r : Int}
    (hi : insert h s v = .ok (h', s', r)) : s'.mod_count = s.mod_count := by
  unfold insert at hi
  split at hi
  · cases hi
  · simp only [Except.ok.injEq, Prod.mk.injEq] at hi
    rw [← hi.2.1]
  · dsimp only at hi
    split at hi
    · split at hi
      · cases hi
      · simp only [Except.ok.injEq, Prod.mk.injEq] at hi
        rw [← hi.2.1]
    · cases hi

theorem eraseLoop_mod_count {h h' : Heap T} {s s' : LinkedSet} {v : T} {r : Int} {n p : Nat}
    (he : eraseLoop h s v n p = .ok (h', s', r)) : s'.mod_count = s.mod_count := by
  induction n generalizing p with
  | zero => simp [eraseLoop] at he
  | succ n ih =>
    simp only [eraseLoop] at he
    split at he
    · cases he
    · split at he
      · simp only [Except.ok.injEq, Prod.mk.injEq] at he
        rw [← he.2.1]
      · split at he
        · cases he
        · split at he
          · simp only [Except.ok.injEq, Prod.mk.injEq] at he
            rw [← he.2.1]
          · exact ih he

theorem erase_mod_count {h h' : Heap T} {s s' : LinkedSet} {v : T} {r : Int}
    (he : erase h s v = .ok (h', s', r)) : s'.mod_count = s.mod_count := by
  unfold erase at he
  split at he
  · cases he
  · exact eraseLoop_mod_count he

theorem clear_mod_count (h : Heap T) (s : LinkedSet) :
    (clear h s).2.mod_count = s.mod_count := rfl

/-! ## erase_all -/

theorem erase_allLoop_count {h h' : Heap T} {s s' : LinkedSet} {k n : Int} (seq : List T)
    (he : erase_allLoop h s k seq = .ok (h', s', n)) : n = k + (seq.length : Int) := by
  induction seq generalizing h s k with
  | nil =>
    simp only [erase_allLoop, Except.ok.injEq, Prod.mk.injEq] at he
    simp [he.2.2]
  | cons x xs ih =>
    simp only [erase_allLoop] at he
    split at he
    · cases he
    · rw [ih he]
      simp only [List.length_cons]
      push_cast
      ring

end Model

/-! ## The claims -/

section Claims

variable {T : Type} [DecidableEq T] [Inhabited T]

/-- C1: inserting the values of any finite sequence one by one into a freshly
constructed set (the loop of `insert_all`, which is also what the initializer-list
constructor runs) succeeds; the traversal of the result is the sequence of the
distinct values in order of first occurrence, and `size()` is the number of
distinct values. -/
theorem C1_insert_sequence (h0 : Heap T) (seq : List T) :
    ∃ h s n,
      insert_all (LinkedSet.construct h0).1 (LinkedSet.construct h0).2 seq = .ok (h, s, n) ∧
      LinkedSet.fromList h0 seq = .ok (h, s) ∧
      traversal h s = .ok (firstOccurrences seq) ∧
      s.size = (seq.dedup.length : Int) := by
  obtain ⟨h, s, ds, hrun, hgood, hvals, _, _, hus⟩ :=
    insert_allLoop_good seq 0 (construct_good h0)
  have hvals2 : ds.map Prod.snd = firstOccurrences seq := by
    rw [hvals]; simp
  have hlen : ds.length = seq.dedup.length := by
    rw [← firstOccurrences_length, ← hvals2, List.length_map]
  refine ⟨h, s, 0 + (ds.length : Int), hrun, ?_, ?_, ?_⟩
  · simp only [LinkedSet.fromList, insert_all, hrun]
  · rw [hgood.traversal]; simp [hvals2]
  · show s.used = _
    rw [hus, hlen]
    simp [LinkedSet.construct]

/-- The scenario of the specification for the initializer-list constructor:
`LinkedSet<int> s({1,2,2,3})` has `size()==3` and traversal 1, 2, 3. -/
theorem fromList_1223 :
    ∃ h s, LinkedSet.fromList ([] : Heap Int) [1, 2, 2, 3] = .ok (h, s) ∧ s.size = 3 ∧
      traversal h s = .ok [1, 2, 3] :=
  ⟨_, _, rfl, rfl, rfl⟩

/-- C2: when `contains(v)` is true, `insert(v)` returns 0 and changes neither the
arena nor any data member of the set (so elements, order, `size()`, `front` and
`mod_count` are all as before). -/
theorem C2_insert_present (h : Heap T) (s : LinkedSet) (v : T)
    (hc : contains h s v = .ok true) : insert h s v = .ok (h, s, 0) :=
  insert_of_contains hc

/-- Witness for C2: inserting 1 into the set `{1,2}`. -/
theorem C2_insert_present_witness :
    contains arena12 set12 1 = .ok true ∧ insert arena12 set12 1 = .ok (arena12, set12, 0) :=
  ⟨rfl, C2_insert_present arena12 set12 1 rfl⟩

/-- C3: in a consistent state, when `contains(v)` is false, `insert(v)` returns 1,
the traversal afterwards is the old traversal followed by `v`, `size()` is one
greater, and `front` designates the newly allocated node, which holds `v` and is
the last node of the chain (the state is consistent again). -/
theorem C3_insert_absent (h : Heap T) (s : LinkedSet) (v : T)
    (hcons : Consistent h s) (hc : contains h s v = .ok false) :
    ∃ l h' s', traversal h s = .ok l ∧ insert h s v = .ok (h', s', 1) ∧
      traversal h' s' = .ok (l ++ [v]) ∧ s'.size = s.size + 1 ∧
      s'.front = some (alloc h (⟨v, none⟩ : LN T)).2 ∧
      load h' s'.front = some ⟨v, none⟩ ∧ Consistent h' s' := by
  obtain ⟨cs, hg⟩ := hcons.good
  have hv : v ∉ cs.map Prod.snd := by
    have h1 := hg.contains v
    rw [hc] at h1
    simpa using h1.symm
  obtain ⟨h', s', hins, hg', hfront, _, hus, _, _, _⟩ := insert_new hg hv
  refine ⟨cs.map Prod.snd, h', s', hg.traversal, hins, ?_, hus, hfront, ?_, hg'.consistent⟩
  · rw [hg'.traversal]; simp
  · obtain ⟨t, tv, _, hseg, _, _⟩ := hg'
    rw [hfront]
    have hlist : (t, tv) :: (cs ++ [(h.length, v)]) = ((t, tv) :: cs) ++ [(h.length, v)] := rfl
    rw [hlist] at hseg
    obtain ⟨m, _, hm⟩ := Seg.split hseg
    obtain ⟨_, nx, hl, hnx⟩ := hm
    have hnx2 : nx = none := hnx
    rw [hnx2] at hl
    exact hl

/-- Witness for C3: inserting 3 into the set `{1,2}`. -/
theorem C3_insert_absent_witness :
    ∃ l h' s', traversal arena12 set12 = .ok l ∧ insert arena12 set12 3 = .ok (h', s', 1) ∧
      traversal h' s' = .ok (l ++ [3]) ∧ s'.size = set12.size + 1 ∧
      s'.front = some (alloc arena12 (⟨3, none⟩ : LN Int)).2 ∧
      load h' s'.front = some ⟨3, none⟩ ∧ Consistent h' s' :=
  C3_insert_absent arena12 set12 3 ⟨[(1, 1), (2, 2)], rfl, rfl, rfl⟩ rfl

/-- C4: on a set whose chain is finite, holds no value twice and is counted
correctly by `used`, when `contains(v)` is true, `erase(v)` returns 1; afterwards
`contains(v)` is false, `size()` is one less and still the length of the chain,
the traversal is the old one with `v` left out (the other values keep their
relative order), and `contains` answers as before for every other value. -/
theorem C4_erase_present (h : Heap T) (s : LinkedSet) (v : T) (l : List T)
    (ht : traversal h s = .ok l) (hnd : l.Nodup) (hu : s.used = (l.length : Int))
    (hc : contains h s v = .ok true) :
    ∃ h' s', erase h s v = .ok (h', s', 1) ∧ contains h' s' v = .ok false ∧
      s'.size = s.size - 1 ∧
      traversal h' s' = .ok (l.filter (fun x => decide (x ≠ v))) ∧
      s'.size = ((l.filter (fun x => decide (x ≠ v))).length : Int) ∧
      ∀ w, w ≠ v → contains h' s' w = contains h s w := by
  obtain ⟨cs, hn, hcs⟩ := nodes_of_traversal ht
  obtain ⟨t, tv, htr, hseg⟩ := seg_of_nodes hn
  have hmem : v ∈ cs.map Prod.snd := by
    have h1 := contains_of_seg htr hseg v
    rw [hc] at h1
    simpa using h1.symm
  obtain ⟨h', herase, _, hseg', _, _⟩ := erase_present htr hseg hmem
  have htr' : ({ s with used := s.used - 1 } : LinkedSet).trailer = some t := htr
  have hfe : l.erase v = l.filter (fun x => decide (x ≠ v)) := by
    rw [hnd.erase_eq_filter]
    apply List.filter_congr
    intro x _
    by_cases hx : x = v <;> simp [hx]
  have hvals : (cs.eraseP (fun c => decide (c.2 = v))).map Prod.snd =
      l.filter (fun x => decide (x ≠ v)) := by
    rw [map_snd_eraseP, hcs, hfe]
  have hmeml : v ∈ l := hcs ▸ hmem
  refine ⟨h', { s with used := s.used - 1 }, herase, ?_, rfl, ?_, ?_, ?_⟩
  · rw [contains_of_seg htr' hseg' v, hvals]
    simp
  · rw [traversal_of_nodes (nodes_of_seg htr' hseg'), hvals]
  · show s.used - 1 = _
    rw [hu, ← hfe, List.length_erase_of_mem hmeml]
    have hpos : 0 < l.length := List.length_pos_of_mem hmeml
    omega
  · intro w hw
    rw [contains_of_seg htr' hseg' w, contains_of_seg htr hseg w, hvals, hcs]
    simp [hw]

/-- Witness for C4: erasing "b" from the set `{"a","b"}`; afterwards `size()` is 1,
"a" is contained and "b" is not. -/
theorem C4_erase_present_witness :
    ∃ h' s', erase arenaAB setAB "b" = .ok (h', s', 1) ∧ contains h' s' "b" = .ok false ∧
      s'.size = setAB.size - 1 ∧
      traversal h' s' = .ok (["a", "b"].filter (fun x => decide (x ≠ "b"))) ∧
      s'.size = ((["a", "b"].filter (fun x => decide (x ≠ "b"))).length : Int) ∧
      ∀ w, w ≠ "b" → contains h' s' w = contains arenaAB setAB w :=
  C4_erase_present arenaAB setAB "b" ["a", "b"] rfl (by decide) rfl rfl

/-- C5: when `contains(v)` is false, `erase(v)` returns 0 and changes neither the
arena nor any data member of the set (so elements, order, `size()`, `front` and
`mod_count` are all as before). -/
theorem C5_erase_absent (h : Heap T) (s : LinkedSet) (v : T)
    (hc : contains h s v = .ok false) : erase h s v = .ok (h, s, 0) := by
  unfold contains at hc
  cases htr : s.trailer with
  | none => simp [htr, load] at hc
  | some t =>
    rw [htr] at hc
    cases hl : load h (some t) with
    | none => simp [hl] at hc
    | some c =>
      simp only [hl] at hc
      obtain ⟨cs, hseg, hv⟩ := seg_of_containsLoop hc
      exact erase_absent htr ⟨rfl, c.next, hl, hseg⟩ hv

/-- Witness for C5: erasing 7 from the set `{1,2}`. -/
theorem C5_erase_absent_witness :
    contains arena12 set12 7 = .ok false ∧ erase arena12 set12 7 = .ok (arena12, set12, 0) :=
  ⟨rfl, C5_erase_absent arena12 set12 7 rfl⟩

/-- C6: after `clear()`, whatever the state before, `empty()` is true, `size()` is
0, `contains(v)` is false for every `v`, the traversal is empty, and `front`
equals `trailer`, which designates a live header node with a null `next`; the
state is consistent, and a following `insert(v)` returns 1 and gives the
one-element set holding `v`, as on a freshly constructed set. -/
theorem C6_clear (h : Heap T) (s : LinkedSet) :
    (clear h s).2.empty = true ∧ (clear h s).2.size = 0 ∧
      (∀ v : T, contains (clear h s).1 (clear h s).2 v = .ok false) ∧
      traversal (clear h s).1 (clear h s).2 = .ok [] ∧
      (clear h s).2.front = (clear h s).2.trailer ∧
      load (clear h s).1 (clear h s).2.front = some ⟨default, none⟩ ∧
      Consistent (clear h s).1 (clear h s).2 ∧
      ∀ v : T, ∃ h' s', insert (clear h s).1 (clear h s).2 v = .ok (h', s', 1) ∧
        traversal h' s' = .ok [v] ∧ s'.size = 1 := by
  have hg := clear_good h s
  refine ⟨rfl, rfl, ?_, ?_, rfl, ?_, hg.consistent, ?_⟩
  · intro v
    rw [hg.contains v]; simp
  · rw [hg.traversal]; simp
  · exact load_append_new h _
  · intro v
    obtain ⟨h', s', hins, hg', _, _, hus, _, _, _⟩ := insert_new hg (by simp : v ∉ _)
    refine ⟨h', s', hins, ?_, ?_⟩
    · rw [hg'.traversal]; simp
    · show s'.used = 1
      rw [hus]; rfl

/-- C7, evaluated on the code: on a freshly constructed `LinkedSet<int>`,
`insert(1)` returns 1 and `mod_count` is still 0; on the result `erase(1)`
returns 1 and `mod_count` is unchanged; and `clear()` leaves `mod_count`
unchanged too. No statement of insert, erase or clear assigns `mod_count`. -/
theorem C7_mod_count_not_incremented :
    ∃ h1 s1 h2 s2,
      insert (LinkedSet.construct ([] : Heap Int)).1 (LinkedSet.construct ([] : Heap Int)).2 1
        = .ok (h1, s1, 1) ∧
      (LinkedSet.construct ([] : Heap Int)).2.mod_count = 0 ∧ s1.mod_count = 0 ∧
      erase h1 s1 1 = .ok (h2, s2, 1) ∧ s2.mod_count = s1.mod_count ∧
      (clear h1 s1).2.mod_count = s1.mod_count :=
  ⟨_, _, _, _, rfl, rfl, rfl, rfl, rfl, rfl⟩

/-- C8, evaluated on the code: take `begin()` and `end()` of the set `{1,2}`, then
`insert(3)` (which returns 1), then advance the cursors. Prefix `++` on the
`begin()` cursor returns normally with the cursor moved to the node that holds 2,
postfix `++` does the same and returns the old cursor, and `++` on the `end()`
cursor returns it unmoved; no error is raised, and `mod_count` still equals the
`expected_mod_count` the cursors captured. -/
theorem C8_increment_after_insert :
    ∃ it itEnd h' s',
      LinkedSet.fromList ([] : Heap Int) [1, 2] = .ok (arena12, set12) ∧
      LinkedSet.begin arena12 0 set12 = .ok it ∧
      LinkedSet.end_ arena12 0 set12 = .ok itEnd ∧
      insert arena12 set12 3 = .ok (h', s', 1) ∧
      Iterator.preIncrement h' s' it = .ok { it with current := some 2 } ∧
      Iterator.postIncrement h' s' it = .ok (it, { it with current := some 2 }) ∧
      Iterator.preIncrement h' s' itEnd = .ok itEnd ∧
      it.current = some 1 ∧ load h' (some 2) = some ⟨2, some 3⟩ ∧
      s'.mod_count = it.expected_mod_count :=
  ⟨_, _, _, _, rfl, rfl, rfl, rfl, rfl, rfl, rfl, rfl, rfl, rfl⟩

/-- C9, evaluated on the code: on the set `{1,2}`, `erase_all` of the sequence `7`
returns 1 although nothing is removed (the set and `size()` are as before), and
`erase_all` of the sequence `1, 1` returns 2 although one element is removed. -/
theorem C9_erase_all_counts_attempts :
    (∃ h' s', erase_all arena12 set12 [7] = .ok (h', s', 1) ∧ s'.size = set12.size ∧
      traversal h' s' = .ok [1, 2] ∧ traversal arena12 set12 = .ok [1, 2]) ∧
    (∃ h' s', erase_all arena12 set12 [1, 1] = .ok (h', s', 2) ∧
      s'.size = set12.size - 1 ∧ traversal h' s' = .ok [2]) :=
  ⟨⟨_, _, rfl, rfl, rfl, rfl⟩, ⟨_, _, rfl, rfl, rfl⟩⟩

/-- C10: in a consistent state with traversal `l`, `insert_all(seq)` succeeds and
returns the number of distinct values of `seq` that are not in `l`; this is also
the growth of `size()`. Afterwards the traversal is `l` followed by those values
in order of first occurrence, so `contains(x)` is true exactly for the values of
`l` and of `seq`, and the state is consistent again. -/
theorem C10_insert_all (h : Heap T) (s : LinkedSet) (seq : List T)
    (hcons : Consistent h s) :
    ∃ l h' s' n, traversal h s = .ok l ∧ insert_all h s seq = .ok (h', s', n) ∧
      n = ((seq.filter (fun x => decide (x ∉ l))).dedup.length : Int) ∧
      s'.size - s.size = n ∧
      traversal h' s' =
        .ok (l ++ firstOccurrences (seq.filter (fun x => decide (x ∉ l)))) ∧
      (∀ x, contains h' s' x = .ok (decide (x ∈ l ∨ x ∈ seq))) ∧
      Consistent h' s' := by
  obtain ⟨cs, hg⟩ := hcons.good
  obtain ⟨h', s', ds, hrun, hgood, hvals, _, _, hus⟩ := insert_allLoop_good seq 0 hg
  have hlen : ds.length =
      (seq.filter (fun x => decide (x ∉ cs.map Prod.snd))).dedup.length := by
    rw [← firstOccurrences_length, ← hvals, List.length_map]
  refine ⟨cs.map Prod.snd, h', s', 0 + (ds.length : Int), hg.traversal, hrun, ?_, ?_, ?_, ?_,
    hgood.consistent⟩
  · rw [hlen]; simp
  · show s'.used - s.used = _
    rw [hus]; ring
  · rw [hgood.traversal, List.map_append, hvals]
  · intro x
    rw [hgood.contains x, List.map_append, hvals]
    congr 1
    apply decide_eq_decide.mpr
    rw [List.mem_append, mem_firstOccurrences, List.mem_filter]
    constructor
    · rintro (hx | ⟨hx, _⟩)
      · exact Or.inl hx
      · exact Or.inr hx
    · rintro (hx | hx)
      · exact Or.inl hx
      · by_cases hxl : x ∈ cs.map Prod.snd
        · exact Or.inl hxl
        · exact Or.inr ⟨hx, by simpa using hxl⟩

/-- Witness for C10: `insert_all` of the sequence `2, 5, 5, 1, 6` on the set `{1,2}`. -/
theorem C10_insert_all_witness :
    ∃ l h' s' n, traversal arena12 set12 = .ok l ∧
      insert_all arena12 set12 [2, 5, 5, 1, 6] = .ok (h', s', n) ∧
      n = ((([2, 5, 5, 1, 6] : List Int).filter (fun x => decide (x ∉ l))).dedup.length : Int) ∧
      s'.size - set12.size = n ∧
      traversal h' s' =
        .ok (l ++ firstOccurrences (([2, 5, 5, 1, 6] : List Int).filter
          (fun x => decide (x ∉ l)))) ∧
      (∀ x, contains h' s' x = .ok (decide (x ∈ l ∨ x ∈ ([2, 5, 5, 1, 6] : List Int)))) ∧
      Consistent h' s' :=
  C10_insert_all arena12 set12 [2, 5, 5, 1, 6] ⟨[(1, 1), (2, 2)], rfl, rfl, rfl⟩

end Claims

section Relations

variable {T : Type} [DecidableEq T] [Inhabited T]

/-! ## The relational operators on two chains -/

theorem containedLoop_of_seg {h : Heap T} {other : LinkedSet} {ds cs : List (Nat × T)}
    {p : Ptr} {n : Nat} (ho : nodes h other = .ok ds)
    (hs : Seg h p cs none) (hn : cs.length ≤ n) :
    containedLoop h other n p =
      .ok (decide (∀ x ∈ cs.map Prod.snd, x ∈ ds.map Prod.snd)) := by
  obtain ⟨t, tv, hto, hso⟩ := seg_of_nodes ho
  induction cs generalizing p n with
  | nil =>
    have hp : p = none := hs
    subst hp
    cases n <;> simp [containedLoop]
  | cons c cs ih =>
    obtain ⟨hp, nx, hl, hrest⟩ := hs
    subst hp
    cases n with
    | zero => simp at hn
    | succ n =>
      have hn2 : cs.length ≤ n := by simpa using hn
      simp only [containedLoop, hl, contains_of_seg hto hso c.2]
      by_cases hc : c.2 ∈ ds.map Prod.snd
      · have hd : decide (c.2 ∈ ds.map Prod.snd) = true := by simpa using hc
        rw [hd]
        simp only [ih hrest hn2]
        congr 1
        apply decide_eq_decide.mpr
        simp only [List.map_cons, List.mem_cons, forall_eq_or_imp]
        exact ⟨fun hall => ⟨hc, hall⟩, fun hall => hall.2⟩
      · have hd : decide (c.2 ∈ ds.map Prod.snd) = false := by simpa using hc
        rw [hd]
        have hf : decide (∀ x ∈ (c :: cs).map Prod.snd, x ∈ ds.map Prod.snd) = false := by
          apply decide_eq_false
          intro hall
          exact hc (hall c.2 (by simp))
        rw [hf]

theorem containedLoop_of_nodes {h : Heap T} {this other : LinkedSet} {cs ds : List (Nat × T)}
    (ht : nodes h this = .ok cs) (ho : nodes h other = .ok ds) :
    ∃ t, load h this.trailer = some t ∧
      containedLoop h other (fuel h) t.next =
        .ok (decide (∀ x ∈ cs.map Prod.snd, x ∈ ds.map Prod.snd)) := by
  obtain ⟨t, tv, htt, hst⟩ := seg_of_nodes ht
  obtain ⟨_, nx, hl, hrest⟩ := hst
  have hlen := Seg.length_le hrest
  refine ⟨⟨tv, nx⟩, by rw [htt]; exact hl, ?_⟩
  exact containedLoop_of_seg ho hrest (by simp only [fuel]; omega)

theorem eq_of_nodes {h : Heap T} {A B : LinkedSet} {ca cb : List (Nat × T)}
    (hA : nodes h A = .ok ca) (hB : nodes h B = .ok cb) :
    LinkedSet.eq h A B =
      .ok (decide (A.used = B.used) &&
        decide (∀ x ∈ ca.map Prod.snd, x ∈ cb.map Prod.snd)) := by
  obtain ⟨t, hl, hloop⟩ := containedLoop_of_nodes hA hB
  unfold LinkedSet.eq LinkedSet.size
  by_cases hu : A.used = B.used
  · simp only [hu, ne_eq, not_true_eq_false, if_false, hl, hloop]
    simp
  · simp [hu]

theorem le_of_nodes {h : Heap T} {A B : LinkedSet} {ca cb : List (Nat × T)}
    (hA : nodes h A = .ok ca) (hB : nodes h B = .ok cb) :
    LinkedSet.le h A B =
      .ok (decide (A.used ≤ B.used) &&
        decide (∀ x ∈ ca.map Prod.snd, x ∈ cb.map Prod.snd)) := by
  obtain ⟨t, hl, hloop⟩ := containedLoop_of_nodes hA hB
  unfold LinkedSet.le LinkedSet.size
  by_cases hu : B.used < A.used
  · have hu2 : ¬ A.used ≤ B.used := by omega
    simp [hu, hu2]
  · have hu2 : A.used ≤ B.used := by omega
    simp only [hu, if_false, hl, hloop]
    simp [hu2]

theorem ge_of_nodes {h : Heap T} {A B : LinkedSet} {ca cb : List (Nat × T)}
    (hA : nodes h A = .ok ca) (hB : nodes h B = .ok cb) :
    LinkedSet.ge h A B =
      .ok (decide (B.used ≤ A.used) &&
        decide (∀ x ∈ cb.map Prod.snd, x ∈ ca.map Prod.snd)) := by
  obtain ⟨t, hl, hloop⟩ := containedLoop_of_nodes hB hA
  unfold LinkedSet.ge LinkedSet.size
  by_cases hu : B.used > A.used
  · have hu2 : ¬ B.used ≤ A.used := by omega
    simp [hu, hu2]
  · have hu2 : B.used ≤ A.used := by omega
    simp only [hu, if_false, hl, hloop]
    simp [hu2]

/-! ## Duplicate-free lists as finite sets -/

theorem length_le_of_subset {la lb : List T} (hnd : la.Nodup)
    (hsub : ∀ x ∈ la, x ∈ lb) : la.length ≤ lb.length :=
  (List.subperm_of_subset hnd hsub).length_le

theorem mem_iff_of_subset_of_length {la lb : List T} (hnd : la.Nodup)
    (hsub : ∀ x ∈ la, x ∈ lb) (hlen : lb.length ≤ la.length) : ∀ x, x ∈ la ↔ x ∈ lb := by
  have hperm := (List.subperm_of_subset hnd hsub).perm_of_length_le hlen
  intro x
  exact hperm.mem_iff

theorem length_eq_of_mem_iff {la lb : List T} (ha : la.Nodup) (hb : lb.Nodup)
    (hiff : ∀ x, x ∈ la ↔ x ∈ lb) : la.length = lb.length :=
  ((List.perm_ext_iff_of_nodup ha hb).mpr hiff).length_eq

/-! ## Cursors -/

theorem Good.front_live {h : Heap T} {s : LinkedSet} {cs : List (Nat × T)}
    (hg : Good h s cs) : ∃ fv, load h s.front = some ⟨fv, none⟩ := by
  obtain ⟨t, tv, _, hs, hf, _⟩ := hg
  obtain ⟨pre, last, hfull, hlast⟩ := last_decomp t tv cs
  rw [hfull] at hs
  obtain ⟨m, _, hm⟩ := Seg.split hs
  obtain ⟨_, nx, hl, hnx⟩ := hm
  have hnx2 : nx = none := hnx
  subst hnx2
  exact ⟨last.2, by rw [hf, hlast]; exact hl⟩

theorem preIncrement_at_end {h : Heap T} {s : LinkedSet} {fv : T}
    (hf : load h s.front = some ⟨fv, none⟩) (it : Iterator) (hc : it.current = none) :
    Iterator.preIncrement h s it = .ok it := by
  simp [Iterator.preIncrement, hf, hc]

theorem postIncrement_at_end {h : Heap T} {s : LinkedSet} {fv : T}
    (hf : load h s.front = some ⟨fv, none⟩) (it : Iterator) (hc : it.current = none) :
    Iterator.postIncrement h s it = .ok (it, it) := by
  simp [Iterator.postIncrement, hf, hc]

theorem preIncrement_at_cell {h : Heap T} {s : LinkedSet} {fv : T}
    (hf : load h s.front = some ⟨fv, none⟩) (it : Iterator) {a : Nat} {c : LN T}
    (hc : it.current = some a) (hl : load h (some a) = some c) :
    Iterator.preIncrement h s it = .ok { it with current := c.next } := by
  simp [Iterator.preIncrement, hf, hc, hl]

theorem cursorLoop_of_seg {h : Heap T} {s : LinkedSet} {fv : T}
    (hf : load h s.front = some ⟨fv, none⟩) {e : Iterator} (he : e.current = none)
    {cs : List (Nat × T)} {b : Iterator} {n : Nat} (hr : b.ref_set = e.ref_set)
    (hs : Seg h b.current cs none) (hn : cs.length + 1 ≤ n) :
    cursorLoop h s e n b = .ok (cs.map Prod.snd, cs.length) := by
  induction cs generalizing b n with
  | nil =>
    have hb : b.current = none := hs
    cases n with
    | zero => simp at hn
    | succ n => simp [cursorLoop, Iterator.ne, hr, hb, he]
  | cons c cs ih =>
    obtain ⟨hb, nx, hl, hrest⟩ := hs
    cases n with
    | zero => simp at hn
    | succ n =>
      have hn2 : cs.length + 1 ≤ n := by simpa using hn
      have hinc := preIncrement_at_cell hf b hb hl
      have hnext : cursorLoop h s e n { b with current := nx } =
          .ok (cs.map Prod.snd, cs.length) := ih (b := { b with current := nx }) hr hrest hn2
      have hd : Iterator.deref h b = .ok c.2 := by simp [Iterator.deref, hb, hl]
      have hne : Iterator.ne b e = .ok true := by simp [Iterator.ne, hr, hb, he]
      simp only [cursorLoop, hne, hd, hinc, hnext]
      simp

theorem Good.cursors {h : Heap T} {s : LinkedSet} {cs : List (Nat × T)} (hg : Good h s cs)
    (this : Nat) :
    ∃ b e, LinkedSet.begin h this s = .ok b ∧ LinkedSet.end_ h this s = .ok e ∧
      e.current = none ∧ b.ref_set = e.ref_set ∧ Seg h b.current cs none ∧
      Iterator.eq b e = .ok (decide (cs = [])) ∧
      cursorLoop h s e (fuel h) b = .ok (cs.map Prod.snd, cs.length) := by
  obtain ⟨fv, hf⟩ := hg.front_live
  obtain ⟨t, tv, ht, hs, _, _⟩ := hg
  obtain ⟨_, nx, hl, hrest⟩ := hs
  have hlen := Seg.length_le hrest
  refine ⟨Iterator.construct this s nx, Iterator.construct this s none, ?_, ?_, rfl, rfl,
    hrest, ?_, ?_⟩
  · simp [LinkedSet.begin, ht, hl]
  · simp [LinkedSet.end_, hf]
  · cases cs with
    | nil =>
      have hnx : nx = none := hrest
      simp [Iterator.eq, Iterator.construct, hnx]
    | cons c cs =>
      have hnx : nx = some c.1 := hrest.1
      simp [Iterator.eq, Iterator.construct, hnx]
  · exact cursorLoop_of_seg hf rfl rfl hrest (by simp only [fuel]; omega)

/-! ## The invariant of the states that calls return -/

theorem Seg.live {h : Heap T} {p q : Ptr} {cs : List (Nat × T)} (hs : Seg h p cs q) :
    ∀ a ∈ cs.map Prod.fst, ∃ c, load h (some a) = some c := by
  induction cs generalizing p with
  | nil => intro a ha; simp at ha
  | cons c cs ih =>
    obtain ⟨_, nx, hl, hrest⟩ := hs
    intro a ha
    simp only [List.map_cons, List.mem_cons] at ha
    rcases ha with rfl | ha
    · exact ⟨_, hl⟩
    · exact ih hrest a ha

theorem good_inv {h : Heap T} {s : LinkedSet} {cs : List (Nat × T)} (hg : Good h s cs)
    (hnd : (cs.map Prod.snd).Nodup) : Inv h s cs := by
  obtain ⟨t, tv, ht, hs, hf, hu⟩ := hg
  exact ⟨⟨t, tv, ht, hs, Or.inl hf⟩, hu, hnd⟩

theorem inv_nodes {h : Heap T} {s : LinkedSet} {cs : List (Nat × T)} (hi : Inv h s cs) :
    nodes h s = .ok cs := by
  obtain ⟨⟨t, tv, ht, hs, _⟩, _, _⟩ := hi
  exact nodes_of_seg ht hs

theorem inv_insert {h h' : Heap T} {s s' : LinkedSet} {cs : List (Nat × T)} {v : T} {r : Int}
    (hi : Inv h s cs) (hrun : insert h s v = .ok (h', s', r)) : ∃ cs', Inv h' s' cs' := by
  obtain ⟨⟨t, tv, ht, hs, hfront⟩, hu, hnd⟩ := hi
  by_cases hv : v ∈ cs.map Prod.snd
  · have hc : contains h s v = .ok true := by
      rw [contains_of_seg ht hs v]; simp [hv]
    rw [insert_of_contains hc] at hrun
    simp only [Except.ok.injEq, Prod.mk.injEq] at hrun
    obtain ⟨rfl, rfl, _⟩ := hrun
    exact ⟨cs, ⟨t, tv, ht, hs, hfront⟩, hu, hnd⟩
  · rcases hfront with hf | ⟨a, hfa, halt, hdead⟩
    · obtain ⟨h2, s2, hins, hg2, _⟩ := insert_new ⟨t, tv, ht, hs, hf, hu⟩ hv
      rw [hins] at hrun
      simp only [Except.ok.injEq, Prod.mk.injEq] at hrun
      obtain ⟨rfl, rfl, _⟩ := hrun
      refine ⟨_, good_inv hg2 ?_⟩
      rw [List.map_append, List.nodup_append]
      refine ⟨hnd, by simp, ?_⟩
      intro x hx hx2
      simp only [List.map_cons, List.map_nil, List.mem_singleton] at hx2
      exact hv (hx2 ▸ hx)
    · exfalso
      have hc : contains h s v = .ok false := by
        rw [contains_of_seg ht hs v]; simp [hv]
      have hl1 : load (h ++ [some (⟨v, none⟩ : LN T)]) (some a) = none := by
        rw [load_append_of_lt _ halt]; exact hdead
      simp [insert, hc, alloc, hfa, hl1] at hrun

theorem inv_erase {h h' : Heap T} {s s' : LinkedSet} {cs : List (Nat × T)} {v : T} {r : Int}
    (hi : Inv h s cs) (hrun : erase h s v = .ok (h', s', r)) : ∃ cs', Inv h' s' cs' := by
  obtain ⟨⟨t, tv, ht, hs, hfront⟩, hu, hnd⟩ := hi
  by_cases hv : v ∈ cs.map Prod.snd
  · obtain ⟨h2, herase, hlen, hseg, hframe, hfreed⟩ := erase_present ht hs hv
    rw [herase] at hrun
    simp only [Except.ok.injEq, Prod.mk.injEq] at hrun
    obtain ⟨rfl, rfl, _⟩ := hrun
    obtain ⟨c, hc, hcv⟩ := List.mem_map.mp hv
    have hpc : (fun c : Nat × T => decide (c.2 = v)) c = true := by simpa using hcv
    obtain ⟨c0, l1, l2, _, _, hsplit, herased⟩ := List.exists_of_eraseP (p := fun c : Nat × T => decide (c.2 = v)) hc hpc
    have hndaddr : (cs.map Prod.fst).Nodup := by
      have := Seg.nodup hs
      simp only [List.map_cons, List.nodup_cons] at this
      exact this.2
    refine ⟨cs.eraseP (fun c => decide (c.2 = v)), ⟨t, tv, ht, hseg, ?_⟩, ?_, ?_⟩
    · rcases hfront with hf | ⟨a, hfa, halt, hdead⟩
      · rcases List.eq_nil_or_concat l2 with hl2 | ⟨l3, d, hl2⟩
        · right
          subst hl2
          have hlast : lastPtr (some t) cs = some c0.1 := by
            rw [hsplit]; exact lastPtr_concat _ l1 c0
          refine ⟨c0.1, by rw [hf, hlast], ?_, ?_⟩
          · rw [hlen]
            exact Seg.addr_lt hs c0.1 (by rw [hsplit]; simp)
          · apply hfreed c0.1 (by rw [hsplit]; simp)
            rw [herased, List.append_nil]
            rw [hsplit, List.map_append, List.nodup_append] at hndaddr
            intro hmem
            exact hndaddr.2.2 hmem (by simp)
        · left
          rw [List.concat_eq_append] at hl2
          subst hl2
          have h1 : lastPtr (some t) cs = some d.1 := by
            rw [hsplit]
            have : l1 ++ c0 :: (l3 ++ [d]) = (l1 ++ c0 :: l3) ++ [d] := by simp
            rw [this]; exact lastPtr_concat _ _ d
          have h2 : lastPtr (some t) (cs.eraseP (fun c => decide (c.2 = v))) = some d.1 := by
            rw [herased, ← List.append_assoc]; exact lastPtr_concat _ _ d
          show s.front = _
          rw [hf, h1, h2]
      · right
        refine ⟨a, hfa, by rw [hlen]; exact halt, ?_⟩
        rw [hframe a ?_]
        · exact hdead
        · intro hmem
          obtain ⟨c1, hc1⟩ := Seg.live hs a (by simpa using hmem)
          rw [hdead] at hc1
          cases hc1
    · show s.used - 1 = _
      rw [hu, List.length_eraseP_of_mem hc hpc]
      have hpos : 0 < cs.length := List.length_pos_of_mem hc
      omega
    · rw [map_snd_eraseP]
      exact hnd.erase v
  · rw [erase_absent ht hs hv] at hrun
    simp only [Except.ok.injEq, Prod.mk.injEq] at hrun
    obtain ⟨rfl, rfl, _⟩ := hrun
    exact ⟨cs, ⟨t, tv, ht, hs, hfront⟩, hu, hnd⟩

theorem inv_clear (h : Heap T) (s : LinkedSet) :
    Inv (clear h s).1 (clear h s).2 ([] : List (Nat × T)) :=
  good_inv (clear_good h s) (by simp)

theorem inv_construct (h0 : Heap T) :
    Inv (LinkedSet.construct h0).1 (LinkedSet.construct h0).2 ([] : List (Nat × T)) :=
  good_inv (construct_good h0) (by simp)

theorem inv_insert_allLoop {h h' : Heap T} {s s' : LinkedSet} {cs : List (Nat × T)}
    (i : List T) {k r : Int}
    (hi : Inv h s cs) (hrun : insert_allLoop h s k i = .ok (h', s', r)) :
    ∃ cs', Inv h' s' cs' := by
  induction i generalizing h s cs k with
  | nil =>
    simp only [insert_allLoop, Except.ok.injEq, Prod.mk.injEq] at hrun
    obtain ⟨rfl, rfl, _⟩ := hrun
    exact ⟨cs, hi⟩
  | cons x xs ih =>
    simp only [insert_allLoop] at hrun
    cases hx : insert h s x with
    | error e => simp [hx] at hrun
    | ok res =>
      obtain ⟨h1, s1, r1⟩ := res
      simp only [hx] at hrun
      obtain ⟨cs1, hi1⟩ := inv_insert hi hx
      exact ih hi1 hrun

theorem inv_erase_allLoop {h h' : Heap T} {s s' : LinkedSet} {cs : List (Nat × T)}
    (i : List T) {k r : Int}
    (hi : Inv h s cs) (hrun : erase_allLoop h s k i = .ok (h', s', r)) :
    ∃ cs', Inv h' s' cs' := by
  induction i generalizing h s cs k with
  | nil =>
    simp only [erase_allLoop, Except.ok.injEq, Prod.mk.injEq] at hrun
    obtain ⟨rfl, rfl, _⟩ := hrun
    exact ⟨cs, hi⟩
  | cons x xs ih =>
    simp only [erase_allLoop] at hrun
    cases hx : erase h s x with
    | error e => simp [hx] at hrun
    | ok res =>
      obtain ⟨h1, s1, r1⟩ := res
      simp only [hx] at hrun
      obtain ⟨cs1, hi1⟩ := inv_erase hi hx
      exact ih hi1 hrun

theorem inv_step {h h' : Heap T} {s s' : LinkedSet} {cs : List (Nat × T)} {op : Op T}
    (hi : Inv h s cs) (hrun : step h s op = .ok (h', s')) : ∃ cs', Inv h' s' cs' := by
  cases op with
  | insert v =>
    simp only [step] at hrun
    cases hx : insert h s v with
    | error e => simp [hx] at hrun
    | ok res =>
      obtain ⟨h1, s1, r1⟩ := res
      simp only [hx, Except.ok.injEq, Prod.mk.injEq] at hrun
      obtain ⟨rfl, rfl⟩ := hrun
      exact inv_insert hi hx
  | erase v =>
    simp only [step] at hrun
    cases hx : erase h s v with
    | error e => simp [hx] at hrun
    | ok res =>
      obtain ⟨h1, s1, r1⟩ := res
      simp only [hx, Except.ok.injEq, Prod.mk.injEq] at hrun
      obtain ⟨rfl, rfl⟩ := hrun
      exact inv_erase hi hx
  | clear =>
    simp only [step, Except.ok.injEq] at hrun
    have h1 : h' = (clear h s).1 := by rw [hrun]
    have h2 : s' = (clear h s).2 := by rw [hrun]
    rw [h1, h2]
    exact ⟨[], inv_clear h s⟩
  | insert_all i =>
    simp only [step, insert_all] at hrun
    cases hx : insert_allLoop h s 0 i with
    | error e => simp [hx] at hrun
    | ok res =>
      obtain ⟨h1, s1, r1⟩ := res
      simp only [hx, Except.ok.injEq, Prod.mk.injEq] at hrun
      obtain ⟨rfl, rfl⟩ := hrun
      exact inv_insert_allLoop i hi hx
  | erase_all i =>
    simp only [step, erase_all] at hrun
    cases hx : erase_allLoop h s 0 i with
    | error e => simp [hx] at hrun
    | ok res =>
      obtain ⟨h1, s1, r1⟩ := res
      simp only [hx, Except.ok.injEq, Prod.mk.injEq] at hrun
      obtain ⟨rfl, rfl⟩ := hrun
      exact inv_erase_allLoop i hi hx

theorem inv_run {h h' : Heap T} {s s' : LinkedSet} {cs : List (Nat × T)} (ops : List (Op T))
    (hi : Inv h s cs) (hrun : run h s ops = .ok (h', s')) : ∃ cs', Inv h' s' cs' := by
  induction ops generalizing h s cs with
  | nil =>
    simp only [run, Except.ok.injEq, Prod.mk.injEq] at hrun
    obtain ⟨rfl, rfl⟩ := hrun
    exact ⟨cs, hi⟩
  | cons op ops ih =>
    simp only [ics.run] at hrun
    cases hx : step h s op with
    | error e => simp [hx] at hrun
    | ok res =>
      obtain ⟨h1, s1⟩ := res
      simp only [hx] at hrun
      obtain ⟨cs1, hi1⟩ := inv_step hi hx
      exact ih hi1 hrun

/-- Which calls return in a state that keeps the invariant: `erase` always does;
`insert` of a value that is present returns 0; `insert` of an absent value
returns when `front` designates the last node, and is an invalid access when
`front` is stale. -/
theorem returns_of_inv {h : Heap T} {s : LinkedSet} {cs : List (Nat × T)} (hi : Inv h s cs) :
    (∀ v, ∃ r, erase h s v = .ok r) ∧
      (∀ v, v ∈ cs.map Prod.snd → insert h s v = .ok (h, s, 0)) ∧
      (∀ v, v ∉ cs.map Prod.snd → s.front = lastPtr s.trailer cs →
        ∃ r, insert h s v = .ok r) ∧
      (∀ v, v ∉ cs.map Prod.snd → s.front ≠ lastPtr s.trailer cs →
        insert h s v = .error .invalidAccess) := by
  obtain ⟨⟨t, tv, ht, hs, hfront⟩, hu, hnd⟩ := hi
  refine ⟨?_, ?_, ?_, ?_⟩
  · intro v
    by_cases hv : v ∈ cs.map Prod.snd
    · obtain ⟨h2, herase, _⟩ := erase_present ht hs hv
      exact ⟨_, herase⟩
    · exact ⟨_, erase_absent ht hs hv⟩
  · intro v hv
    apply insert_of_contains
    rw [contains_of_seg ht hs v]; simp [hv]
  · intro v hv hf
    rw [ht] at hf
    obtain ⟨h2, s2, hins, _⟩ := insert_new ⟨t, tv, ht, hs, hf, hu⟩ hv
    exact ⟨_, hins⟩
  · intro v hv hf
    rw [ht] at hf
    rcases hfront with hf2 | ⟨a, hfa, halt, hdead⟩
    · exact absurd hf2 hf
    · have hc : contains h s v = .ok false := by
        rw [contains_of_seg ht hs v]; simp [hv]
      have hl1 : load (h ++ [some (⟨v, none⟩ : LN T)]) (some a) = none := by
        rw [load_append_of_lt _ halt]; exact hdead
      simp [insert, hc, alloc, hfa, hl1]

/-! ## Copying -/

theorem firstOccurrences_of_nodup {l : List T} (hnd : l.Nodup) : firstOccurrences l = l := by
  induction l with
  | nil => rfl
  | cons x xs ih =>
    rw [List.nodup_cons] at hnd
    simp only [firstOccurrences, ih hnd.2]
    congr 1
    rw [List.filter_eq_self]
    intro y hy
    have : y ≠ x := fun e => hnd.1 (e ▸ hy)
    simpa using this

/-- One call of `insert` in a consistent state: it returns, the state is consistent
again, the arena does not shrink, and no old cell other than `*front` changes. -/
theorem insert_good_step {h : Heap T} {s : LinkedSet} {cs : List (Nat × T)} (hg : Good h s cs)
    (v : T) :
    ∃ h1 s1 ds r, insert h s v = .ok (h1, s1, r) ∧ Good h1 s1 (cs ++ ds) ∧
      (∀ c ∈ ds, h.length ≤ c.1) ∧ h.length ≤ h1.length ∧
      (∀ a, a < h.length → some a ≠ s.front → load h1 (some a) = load h (some a)) ∧
      (s1.front = s.front ∨ s1.front = some h.length) := by
  by_cases hv : v ∈ cs.map Prod.snd
  · exact ⟨h, s, [], 0, insert_old hg hv, by simpa using hg, by simp, le_refl _,
      fun _ _ _ => rfl, Or.inl rfl⟩
  · obtain ⟨h1, s1, hins, hg1, hfront, _, _, _, hlen, hframe⟩ := insert_new hg hv
    exact ⟨h1, s1, [(h.length, v)], 1, hins, hg1, by simp, by omega, hframe, Or.inr hfront⟩

theorem insert_allLoop_fresh {h : Heap T} {s : LinkedSet} {cs : List (Nat × T)}
    (seq : List T) (k : Int) (hg : Good h s cs) :
    ∃ h1 s1 ds r, insert_allLoop h s k seq = .ok (h1, s1, r) ∧ Good h1 s1 (cs ++ ds) ∧
      (∀ c ∈ ds, h.length ≤ c.1) ∧ h.length ≤ h1.length ∧
      (∀ a, a < h.length → some a ≠ s.front → load h1 (some a) = load h (some a)) := by
  induction seq generalizing h s cs k with
  | nil =>
    exact ⟨h, s, [], k, rfl, by simpa using hg, by simp, le_refl _, fun _ _ _ => rfl⟩
  | cons x xs ih =>
    obtain ⟨h1, s1, d1, r1, hins, hg1, hfresh1, hlen1, hframe1, hfront1⟩ :=
      insert_good_step hg x
    obtain ⟨h2, s2, d2, r2, hrun, hg2, hfresh2, hlen2, hframe2⟩ := ih (k + r1) hg1
    refine ⟨h2, s2, d1 ++ d2, r2, ?_, ?_, ?_, by omega, ?_⟩
    · simp only [insert_allLoop, hins]
      exact hrun
    · rw [← List.append_assoc]; exact hg2
    · intro c hc
      rcases List.mem_append.mp hc with hc | hc
      · exact hfresh1 c hc
      · exact le_trans hlen1 (hfresh2 c hc)
    · intro a ha hne
      have hne1 : some a ≠ s1.front := by
        rcases hfront1 with e | e
        · rw [e]; exact hne
        · rw [e]
          intro e2
          have := Option.some.inj e2
          omega
      rw [hframe2 a (by omega) hne1, hframe1 a ha hne]

theorem assignLoop_eq {h : Heap T} {dst : LinkedSet} {ds rest : List (Nat × T)} {p : Ptr}
    {n : Nat} (k : Int) (hg : Good h dst ds) (hs : Seg h p rest none)
    (hfr : ∀ c ∈ rest, some c.1 ≠ dst.front) (hn : rest.length ≤ n) :
    assignLoop n h dst p =
      match insert_allLoop h dst k (rest.map Prod.snd) with
      | .error x => .error x
      | .ok (h1, s1, _) => .ok (h1, s1) := by
  induction rest generalizing h dst ds p n k with
  | nil =>
    have hp : p = none := hs
    subst hp
    cases n <;> simp [assignLoop, insert_allLoop]
  | cons c rest ih =>
    obtain ⟨hp, nx, hl, hrest⟩ := hs
    subst hp
    cases n with
    | zero => simp at hn
    | succ n =>
      have hn2 : rest.length ≤ n := by simpa using hn
      obtain ⟨h1, s1, d1, r1, hins, hg1, _, hlen1, hframe1, hfront1⟩ :=
        insert_good_step hg c.2
      have hall : Seg h (some c.1) (c :: rest) none := ⟨rfl, nx, hl, hrest⟩
      have hkeep : ∀ d ∈ c :: rest, load h1 (some d.1) = load h (some d.1) := by
        intro d hd
        exact hframe1 d.1 (Seg.addr_lt hall d.1 (List.mem_map_of_mem _ hd)) (hfr d hd)
      have hl1 : load h1 (some c.1) = some ⟨c.2, nx⟩ := by
        rw [hkeep c (by simp)]; exact hl
      have hrest1 : Seg h1 nx rest none := by
        refine Seg.frame hrest ?_
        intro a ha
        obtain ⟨d, hd, rfl⟩ := List.mem_map.mp ha
        exact hkeep d (List.mem_cons_of_mem _ hd)
      have hfr1 : ∀ d ∈ rest, some d.1 ≠ s1.front := by
        intro d hd
        rcases hfront1 with e | e
        · rw [e]; exact hfr d (List.mem_cons_of_mem _ hd)
        · rw [e]
          intro e2
          have h3 := Option.some.inj e2
          have h4 := Seg.addr_lt hrest d.1 (List.mem_map_of_mem _ hd)
          omega
      simp only [assignLoop, hl, hins, hl1, List.map_cons, insert_allLoop]
      exact ih (k + r1) hg1 hrest1 hfr1 hn2

theorem insert_allSetLoop_eq {h : Heap T} {dst src : LinkedSet} {ds rest : List (Nat × T)}
    {e b : Iterator} {n : Nat} {fa : Nat} {fv : T} (k : Int) (hg : Good h dst ds)
    (hs : Seg h b.current rest none) (hfr : ∀ c ∈ rest, some c.1 ≠ dst.front)
    (hn : rest.length + 1 ≤ n) (he : e.current = none) (hr : b.ref_set = e.ref_set)
    (hsf : src.front = some fa) (hfd : some fa ≠ dst.front)
    (hfl : load h (some fa) = some ⟨fv, none⟩) :
    insert_allSetLoop src e n h dst k b = insert_allLoop h dst k (rest.map Prod.snd) := by
  induction rest generalizing h dst ds b n k with
  | nil =>
    have hb : b.current = none := hs
    cases n with
    | zero => simp at hn
    | succ n => simp [insert_allSetLoop, Iterator.ne, hr, hb, he, insert_allLoop]
  | cons c rest ih =>
    obtain ⟨hb, nx, hl, hrest⟩ := hs
    cases n with
    | zero => simp at hn
    | succ n =>
      have hn2 : rest.length + 1 ≤ n := by simpa using hn
      obtain ⟨h1, s1, d1, r1, hins, hg1, _, hlen1, hframe1, hfront1⟩ :=
        insert_good_step hg c.2
      have hall : Seg h (some c.1) (c :: rest) none := ⟨rfl, nx, hl, hrest⟩
      have hkeep : ∀ d ∈ c :: rest, load h1 (some d.1) = load h (some d.1) := by
        intro d hd
        exact hframe1 d.1 (Seg.addr_lt hall d.1 (List.mem_map_of_mem _ hd)) (hfr d hd)
      have hl1 : load h1 (some c.1) = some ⟨c.2, nx⟩ := by
        rw [hkeep c (by simp)]; exact hl
      have hrest1 : Seg h1 nx rest none := by
        refine Seg.frame hrest ?_
        intro a ha
        obtain ⟨d, hd, rfl⟩ := List.mem_map.mp ha
        exact hkeep d (List.mem_cons_of_mem _ hd)
      have hfalt : fa < h.length := load_lt hfl
      have hfr1 : ∀ d ∈ rest, some d.1 ≠ s1.front := by
        intro d hd
        rcases hfront1 with e1 | e1
        · rw [e1]; exact hfr d (List.mem_cons_of_mem _ hd)
        · rw [e1]
          intro e2
          have h3 := Option.some.inj e2
          have h4 := Seg.addr_lt hrest d.1 (List.mem_map_of_mem _ hd)
          omega
      have hfd1 : some fa ≠ s1.front := by
        rcases hfront1 with e1 | e1
        · rw [e1]; exact hfd
        · rw [e1]
          intro e2
          have h3 := Option.some.inj e2
          omega
      have hfl1 : load h1 (some fa) = some ⟨fv, none⟩ := by
        rw [hframe1 fa hfalt hfd]; exact hfl
      have hne : Iterator.ne b e = .ok true := by simp [Iterator.ne, hr, hb, he]
      have hd : Iterator.deref h b = .ok c.2 := by simp [Iterator.deref, hb, hl]
      have hinc : Iterator.preIncrement h1 src b = .ok { b with current := nx } := by
        simp [Iterator.preIncrement, hsf, hfl1, hb, hl1]
      simp only [insert_allSetLoop, hne, hd, hins, hinc, List.map_cons, insert_allLoop]
      exact ih (b := { b with current := nx }) (k + r1) hg1 hrest1 hfr1 hn2 hr hfd1 hfl1

theorem good_append {h : Heap T} {s : LinkedSet} {cs : List (Nat × T)} (hg : Good h s cs)
    (l : Heap T) : Good (h ++ l) s cs := by
  obtain ⟨t, tv, ht, hs, hf, hu⟩ := hg
  refine ⟨t, tv, ht, Seg.frame hs ?_, hf, hu⟩
  intro a ha
  exact load_append_of_lt l (Seg.addr_lt hs a ha)

theorem good_addr_lt {h : Heap T} {s : LinkedSet} {cs : List (Nat × T)} (hg : Good h s cs) :
    ∀ c ∈ cs, c.1 < h.length := by
  obtain ⟨t, tv, _, hs, _, _⟩ := hg
  intro c hc
  apply Seg.addr_lt hs c.1
  simp only [List.map_cons, List.mem_cons]
  exact Or.inr (List.mem_map_of_mem _ hc)

theorem fresh_header_good (h : Heap T) (d0 : LinkedSet) (hf : d0.front = some h.length)
    (ht : d0.trailer = some h.length) (hu : d0.used = 0) :
    Good (h ++ [some (⟨default, none⟩ : LN T)]) d0 ([] : List (Nat × T)) := by
  refine ⟨h.length, default, ht, ⟨rfl, none, load_append_new h _, rfl⟩, hf, ?_⟩
  rw [hu]; rfl

/-- Inserting the values of a duplicate-free consistent set `s`, in order, into a
set that consists of a freshly allocated header gives a copy of `s`. -/
theorem copy_by_insert_all {h : Heap T} {s : LinkedSet} {cs : List (Nat × T)}
    (hg : Good h s cs) (hnd : (cs.map Prod.snd).Nodup) (d0 : LinkedSet)
    (hf : d0.front = some h.length) (ht : d0.trailer = some h.length) (hu : d0.used = 0) :
    ∃ h1 c r, insert_allLoop (h ++ [some (⟨default, none⟩ : LN T)]) d0 0 (cs.map Prod.snd)
        = .ok (h1, c, r) ∧ CopyOf h s h1 c := by
  have hg0 := fresh_header_good h d0 hf ht hu
  obtain ⟨h1, c, dd, hrun, hgc, hvals, htr, _, hus⟩ :=
    insert_allLoop_good (cs.map Prod.snd) 0 hg0
  obtain ⟨h2, c2, dd2, r2, hrun2, hgc2, hfresh, hlen, hframe⟩ :=
    insert_allLoop_fresh (cs.map Prod.snd) 0 hg0
  rw [hrun] at hrun2
  simp only [Except.ok.injEq, Prod.mk.injEq] at hrun2
  obtain ⟨rfl, rfl, _⟩ := hrun2
  have hdd : dd2 = dd := by
    have h3 := hgc2.nodes
    rw [hgc.nodes] at h3
    simpa using h3.symm
  subst hdd
  simp only [List.nil_append] at hgc
  have hvals2 : dd2.map Prod.snd = cs.map Prod.snd := by
    rw [hvals]
    simp only [List.map_nil, List.not_mem_nil, not_false_eq_true, decide_True,
      List.filter_true]
    exact firstOccurrences_of_nodup hnd
  have hold : ∀ a, a < h.length → load h1 (some a) = load h (some a) := by
    intro a ha
    have hne : some a ≠ d0.front := by
      rw [hf]
      intro e
      have := Option.some.inj e
      omega
    rw [hframe a (by simp only [List.length_append, List.length_singleton]; omega) hne,
      load_append_of_lt _ ha]
  obtain ⟨ts, tsv, hts, hss, _, hsu⟩ := hg
  have hss1 : Seg h1 (some ts) ((ts, tsv) :: cs) none :=
    Seg.frame hss (fun a ha => hold a (Seg.addr_lt hss a ha))
  have hns1 : nodes h1 s = .ok cs := nodes_of_seg hts hss1
  have hlen2 : dd2.length = cs.length := by
    rw [← List.length_map dd2 Prod.snd, hvals2, List.length_map]
  have hsize : c.used = s.used := by
    rw [hus, hu, hsu, hlen2]; simp
  refine ⟨h1, c, _, hrun, cs, dd2, ts, h.length, nodes_of_seg hts hss, hns1, hgc.nodes,
    hvals2, hsize, ?_, hts, by rw [htr, ht], ?_, hold⟩
  · rw [eq_of_nodes hgc.nodes hns1, hvals2]
    simp [hsize]
  · intro a ha hb
    have hlt : a < h.length := Seg.addr_lt hss a hb
    simp only [List.mem_cons] at ha
    rcases ha with e | ha
    · omega
    · obtain ⟨d, hd, rfl⟩ := List.mem_map.mp ha
      have := hfresh d hd
      simp only [List.length_append, List.length_singleton] at this
      omega

theorem copyConstruct_copyOf {h : Heap T} {s : LinkedSet} {cs : List (Nat × T)}
    (hg : Good h s cs) (hnd : (cs.map Prod.snd).Nodup) (sId : Nat) :
    ∃ h1 c, LinkedSet.copyConstruct h sId s = .ok (h1, c) ∧ CopyOf h s h1 c := by
  let d0 : LinkedSet :=
    { front := some h.length, trailer := some h.length, used := 0, mod_count := 0 }
  obtain ⟨h1, c, r, hrun, hcopy⟩ := copy_by_insert_all hg hnd d0 rfl rfl rfl
  have hg0 := fresh_header_good h d0 rfl rfl rfl
  have hgs := good_append hg [some (⟨default, none⟩ : LN T)]
  obtain ⟨fv, hfl⟩ := hgs.front_live
  obtain ⟨b, e, hb, he, hec, href, hseg, _, _⟩ := hgs.cursors sId
  have hlenle : cs.length ≤ h.length := by
    obtain ⟨ts, tsv, _, hss, _, _⟩ := hg
    have := Seg.length_le hss
    simp only [List.length_cons] at this
    omega
  cases hsf : s.front with
  | none => rw [hsf] at hfl; simp [load] at hfl
  | some fa =>
    rw [hsf] at hfl
    have hfalt : fa < h.length := by
      obtain ⟨fv0, hfl0⟩ := hg.front_live
      rw [hsf] at hfl0
      exact load_lt hfl0
    have hfr : ∀ c ∈ cs, some c.1 ≠ d0.front := by
      intro c hc e1
      have h3 : c.1 = h.length := Option.some.inj e1
      have := good_addr_lt hg c hc
      omega
    have hfd : some fa ≠ d0.front := by
      intro e1
      have h3 : fa = h.length := Option.some.inj e1
      omega
    have hloop := insert_allSetLoop_eq (e := e) (b := b)
      (n := fuel (h ++ [some (⟨default, none⟩ : LN T)])) 0 hg0 hseg hfr
      (by simp only [fuel, List.length_append, List.length_singleton]; omega) hec href hsf
      hfd hfl
    refine ⟨h1, c, ?_, hcopy⟩
    simp only [LinkedSet.copyConstruct, alloc, insert_allSet, hb, he]
    rw [hloop, hrun]

theorem assign_copyOf {h : Heap T} {s : LinkedSet} {cs : List (Nat × T)}
    (hg : Good h s cs) (hnd : (cs.map Prod.snd).Nodup) (sId tId : Nat) (tgt : LinkedSet)
    (hne : tId ≠ sId) :
    ∃ h1 c, LinkedSet.assign h tId tgt sId s = .ok (h1, c) ∧ CopyOf h s h1 c := by
  obtain ⟨h1, c, r, hrun, hcopy⟩ := copy_by_insert_all hg hnd (clear h tgt).2 rfl rfl rfl
  have hg0 := fresh_header_good h (clear h tgt).2 rfl rfl rfl
  obtain ⟨ts, tsv, hts, hss, _, _⟩ := good_append hg [some (⟨default, none⟩ : LN T)]
  have hlenle : cs.length + 1 ≤ h.length := by
    obtain ⟨ts0, tsv0, _, hss0, _, _⟩ := hg
    exact Seg.length_le hss0
  obtain ⟨_, nx, hl, hrest⟩ := hss
  have hfr : ∀ c ∈ cs, some c.1 ≠ (clear h tgt).2.front := by
    intro c hc e1
    have h3 : c.1 = h.length := Option.some.inj e1
    have := good_addr_lt hg c hc
    omega
  have hloop := assignLoop_eq (n := fuel (h ++ [some (⟨default, none⟩ : LN T)])) 0 hg0 hrest
    hfr (by simp only [fuel, List.length_append, List.length_singleton]; omega)
  refine ⟨h1, c, ?_, hcopy⟩
  have hl2 : load (clear h tgt).1 s.trailer = some ⟨tsv, nx⟩ := by rw [hts]; exact hl
  simp only [LinkedSet.assign, hne, if_false, hl2]
  have hc1 : (clear h tgt).1 = h ++ [some (⟨default, none⟩ : LN T)] := rfl
  rw [hc1, hloop, hrun]

theorem fromList_good (h0 : Heap T) (seq : List T) :
    ∃ h s cs, LinkedSet.fromList h0 seq = .ok (h, s) ∧ Good h s cs ∧
      cs.map Prod.snd = firstOccurrences seq := by
  obtain ⟨h, s, ds, hrun, hgood, hvals, _, _, _⟩ :=
    insert_allLoop_good seq 0 (construct_good h0)
  refine ⟨h, s, ds, ?_, by simpa using hgood, ?_⟩
  · simp only [LinkedSet.fromList, insert_all, hrun]
  · rw [hvals]; simp

/-! ## Equality and inclusion on sets that keep the set invariants -/

theorem eq_same_values {h : Heap T} {A B : LinkedSet} {la lb : List T}
    (hA : traversal h A = .ok la) (hB : traversal h B = .ok lb)
    (ndA : la.Nodup) (ndB : lb.Nodup)
    (uA : A.used = (la.length : Int)) (uB : B.used = (lb.length : Int)) :
    LinkedSet.eq h A B = .ok (decide ((∀ x ∈ la, x ∈ lb) ∧ (∀ x ∈ lb, x ∈ la))) := by
  obtain ⟨ca, hna, hca⟩ := nodes_of_traversal hA
  obtain ⟨cb, hnb, hcb⟩ := nodes_of_traversal hB
  rw [eq_of_nodes hna hnb, hca, hcb, ← Bool.decide_and]
  congr 1
  apply decide_eq_decide.mpr
  rw [uA, uB]
  constructor
  · rintro ⟨hlen, hsub⟩
    have hlen2 : la.length = lb.length := by exact_mod_cast hlen
    have hiff := mem_iff_of_subset_of_length ndA hsub (by omega)
    exact ⟨hsub, fun x hx => (hiff x).mpr hx⟩
  · rintro ⟨h1, h2⟩
    refine ⟨?_, h1⟩
    rw [length_eq_of_mem_iff ndA ndB (fun x => ⟨h1 x, h2 x⟩)]

theorem le_subset {h : Heap T} {A B : LinkedSet} {la lb : List T}
    (hA : traversal h A = .ok la) (hB : traversal h B = .ok lb)
    (ndA : la.Nodup)
    (uA : A.used = (la.length : Int)) (uB : B.used = (lb.length : Int)) :
    LinkedSet.le h A B = .ok (decide (∀ x ∈ la, x ∈ lb)) := by
  obtain ⟨ca, hna, hca⟩ := nodes_of_traversal hA
  obtain ⟨cb, hnb, hcb⟩ := nodes_of_traversal hB
  rw [le_of_nodes hna hnb, hca, hcb, ← Bool.decide_and]
  congr 1
  apply decide_eq_decide.mpr
  rw [uA, uB]
  constructor
  · rintro ⟨_, hsub⟩
    exact hsub
  · intro hsub
    refine ⟨?_, hsub⟩
    exact_mod_cast length_le_of_subset ndA hsub

end Relations

/-! ## Calls that go on through a stale `front` -/

section Raw

variable {T : Type} [DecidableEq T] [Inhabited T]

end Raw

/-! ## The claims, continued -/

section MoreClaims

variable {T : Type} [DecidableEq T] [Inhabited T]

/-- C11, evaluated on the code: `retain_all({2,3})` on the set `{1,2,3,4}` removes
nothing (the arena and the data members are as before, the traversal is still
1, 2, 3, 4) and returns no value, the body of `retain_all` being empty. -/
theorem C11_retain_all_does_nothing :
    ∃ h s, LinkedSet.fromList ([] : Heap Int) [1, 2, 3, 4] = .ok (h, s) ∧
      retain_all h s [2, 3] = (h, s, none) ∧ traversal h s = .ok [1, 2, 3, 4] ∧
      s.size = 4 :=
  ⟨_, _, rfl, rfl, rfl, rfl⟩

/-- C12: on sets of one arena whose chains are finite, hold no value twice and are
counted correctly by `used`, `operator==` always returns, `A==A` is true, `A==B`
implies `B==A`, `A==B` and `B==C` imply `A==C`, and `A==B` is true exactly when
`A` and `B` hold the same values, whatever their order. -/
theorem C12_eq_equivalence (h : Heap T) (A B C : LinkedSet) (la lb lc : List T)
    (hA : traversal h A = .ok la) (hB : traversal h B = .ok lb) (hC : traversal h C = .ok lc)
    (ndA : la.Nodup) (ndB : lb.Nodup) (ndC : lc.Nodup)
    (uA : A.used = (la.length : Int)) (uB : B.used = (lb.length : Int))
    (uC : C.used = (lc.length : Int)) :
    LinkedSet.eq h A A = .ok true ∧
      (LinkedSet.eq h A B = .ok true → LinkedSet.eq h B A = .ok true) ∧
      (LinkedSet.eq h A B = .ok true → LinkedSet.eq h B C = .ok true →
        LinkedSet.eq h A C = .ok true) ∧
      ∃ b, LinkedSet.eq h A B = .ok b ∧ (b = true ↔ ∀ x, x ∈ la ↔ x ∈ lb) := by
  have hAA := eq_same_values hA hA ndA ndA uA uA
  have hAB := eq_same_values hA hB ndA ndB uA uB
  have hBA := eq_same_values hB hA ndB ndA uB uA
  have hBC := eq_same_values hB hC ndB ndC uB uC
  have hAC := eq_same_values hA hC ndA ndC uA uC
  refine ⟨?_, ?_, ?_, _, hAB, ?_⟩
  · rw [hAA]; simp
  · intro h1
    rw [hAB] at h1
    rw [hBA]
    simp only [Except.ok.injEq, decide_eq_true_eq] at h1 ⊢
    exact ⟨h1.2, h1.1⟩
  · intro h1 h2
    rw [hAB] at h1
    rw [hBC] at h2
    rw [hAC]
    simp only [Except.ok.injEq, decide_eq_true_eq] at h1 h2 ⊢
    exact ⟨fun x hx => h2.1 x (h1.1 x hx), fun x hx => h1.2 x (h2.2 x hx)⟩
  · simp only [decide_eq_true_eq]
    constructor
    · rintro ⟨h1, h2⟩ x
      exact ⟨h1 x, h2 x⟩
    · intro hiff
      exact ⟨fun x hx => (hiff x).mp hx, fun x hx => (hiff x).mpr hx⟩

/-- Witness for C12: the sets `{1,2}` and `{2,1}` of the arena `arenaTwo`. -/
theorem C12_eq_equivalence_witness :
    LinkedSet.eq arenaTwo set12 set12 = .ok true ∧
      (LinkedSet.eq arenaTwo set12 set21 = .ok true →
        LinkedSet.eq arenaTwo set21 set12 = .ok true) ∧
      (LinkedSet.eq arenaTwo set12 set21 = .ok true →
        LinkedSet.eq arenaTwo set21 set12 = .ok true →
        LinkedSet.eq arenaTwo set12 set12 = .ok true) ∧
      ∃ b, LinkedSet.eq arenaTwo set12 set21 = .ok b ∧
        (b = true ↔ ∀ x, x ∈ ([1, 2] : List Int) ↔ x ∈ ([2, 1] : List Int)) :=
  C12_eq_equivalence arenaTwo set12 set21 set12 [1, 2] [2, 1] [1, 2] rfl rfl rfl
    (by decide) (by decide) (by decide) rfl rfl rfl

/-- C13: on sets of one arena that keep the set invariants, `A<=B` is true exactly
when every value of `A` is a value of `B`, `A<=A` is true, and `A==B` has the
value of `A<=B && B<=A`. -/
theorem C13_le_antisymm (h : Heap T) (A B : LinkedSet) (la lb : List T)
    (hA : traversal h A = .ok la) (hB : traversal h B = .ok lb)
    (ndA : la.Nodup) (ndB : lb.Nodup)
    (uA : A.used = (la.length : Int)) (uB : B.used = (lb.length : Int)) :
    ∃ b1 b2, LinkedSet.le h A B = .ok b1 ∧ LinkedSet.le h B A = .ok b2 ∧
      LinkedSet.eq h A B = .ok (b1 && b2) ∧
      b1 = decide (∀ x ∈ la, x ∈ lb) ∧ b2 = decide (∀ x ∈ lb, x ∈ la) ∧
      LinkedSet.le h A A = .ok true := by
  refine ⟨_, _, le_subset hA hB ndA uA uB, le_subset hB hA ndB uB uA, ?_, rfl, rfl, ?_⟩
  · rw [eq_same_values hA hB ndA ndB uA uB, Bool.decide_and]
  · rw [le_subset hA hA ndA uA uA]; simp

/-- Witness for C13: the sets `{1,2}` and `{2,1}` of the arena `arenaTwo`. -/
theorem C13_le_antisymm_witness :
    ∃ b1 b2, LinkedSet.le arenaTwo set12 set21 = .ok b1 ∧
      LinkedSet.le arenaTwo set21 set12 = .ok b2 ∧
      LinkedSet.eq arenaTwo set12 set21 = .ok (b1 && b2) ∧
      b1 = decide (∀ x ∈ ([1, 2] : List Int), x ∈ ([2, 1] : List Int)) ∧
      b2 = decide (∀ x ∈ ([2, 1] : List Int), x ∈ ([1, 2] : List Int)) ∧
      LinkedSet.le arenaTwo set12 set12 = .ok true :=
  C13_le_antisymm arenaTwo set12 set21 [1, 2] [2, 1] rfl rfl (by decide) (by decide) rfl rfl

/-- C14, evaluated on the code: for the sets `{1}` and `{2}` built one after the
other, neither `<=` nor `>=` holds and `==` is false, yet `{1}<{2}` is true, and
so is `{2}<{1}`, while `{1}<{1}` is false (so `<` is not transitive either). The
three scenarios on `{1,2,3}` and `{1,2,3,4}` come out as specified. -/
theorem C14_lt_on_incomparable_sets :
    (∃ h1 a h b, LinkedSet.fromList ([] : Heap Int) [1] = .ok (h1, a) ∧
      LinkedSet.fromList h1 [2] = .ok (h, b) ∧
      LinkedSet.le h a b = .ok false ∧ LinkedSet.ge h a b = .ok false ∧
      LinkedSet.eq h a b = .ok false ∧
      LinkedSet.lt h a b = .ok true ∧ LinkedSet.lt h b a = .ok true ∧
      LinkedSet.lt h a a = .ok false) ∧
    (∃ h1 a h b, LinkedSet.fromList ([] : Heap Int) [1, 2, 3] = .ok (h1, a) ∧
      LinkedSet.fromList h1 [1, 2, 3, 4] = .ok (h, b) ∧
      LinkedSet.le h a b = .ok true ∧ LinkedSet.lt h a a = .ok false ∧
      LinkedSet.lt h a b = .ok true) :=
  ⟨⟨_, _, _, _, rfl, rfl, rfl, rfl, rfl, rfl, rfl, rfl⟩, ⟨_, _, _, _, rfl, rfl, rfl, rfl, rfl⟩⟩

/-- C15: for the set built from any sequence by the initializer-list constructor,
`begin()` and `end()` return, `begin()==end()` has the value of `empty()`, the
cursor loop from `begin()` to `end()` with prefix `++` dereferences the distinct
values of the sequence in order of first occurrence and makes `size()` advances,
and advancing (prefix or postfix) any cursor at the past-tail position leaves it
there. -/
theorem C15_cursor_traversal (h0 : Heap T) (seq : List T) (this : Nat) :
    ∃ h s b e k, LinkedSet.fromList h0 seq = .ok (h, s) ∧
      LinkedSet.begin h this s = .ok b ∧ LinkedSet.end_ h this s = .ok e ∧
      Iterator.eq b e = .ok s.empty ∧
      cursorTraversal h this s = .ok (firstOccurrences seq, k) ∧ (k : Int) = s.size ∧
      ∀ it : Iterator, it.current = e.current →
        Iterator.preIncrement h s it = .ok it ∧
        Iterator.postIncrement h s it = .ok (it, it) := by
  obtain ⟨h, s, cs, hbuild, hg, hvals⟩ := fromList_good h0 seq
  obtain ⟨fv, hf⟩ := hg.front_live
  obtain ⟨b, e, hb, he, hec, _, _, heq, hloop⟩ := hg.cursors this
  have hu : s.used = (cs.length : Int) := by
    obtain ⟨_, _, _, _, _, hu⟩ := hg
    exact hu
  refine ⟨h, s, b, e, cs.length, hbuild, hb, he, ?_, ?_, hu.symm, ?_⟩
  · rw [heq]
    congr 1
    simp only [LinkedSet.empty, hu]
    apply decide_eq_decide.mpr
    constructor
    · intro hnil; rw [hnil]; rfl
    · intro hz
      have : cs.length = 0 := by exact_mod_cast hz
      exact List.length_eq_zero.mp this
  · simp only [cursorTraversal, hb, he, hloop, hvals]
  · intro it hit
    rw [hec] at hit
    exact ⟨preIncrement_at_end hf it hit, postIncrement_at_end hf it hit⟩

/-- In every state that a sequence of calls returns under `run` (where a write
through a stale `front` is an invalid access and returns no state), the chain
from the header is finite, `size()` is the number of its nodes, and `empty()` is
true exactly when there is none. -/
theorem run_count_invariant (h0 : Heap T) (ops : List (Op T)) (h : Heap T) (s : LinkedSet)
    (hrun : run (LinkedSet.construct h0).1 (LinkedSet.construct h0).2 ops = .ok (h, s)) :
    ∃ cs, nodes h s = .ok cs ∧ s.size = (cs.length : Int) ∧
      (s.empty = true ↔ cs = []) := by
  obtain ⟨cs, hi⟩ := inv_run ops (inv_construct h0) hrun
  have hn := inv_nodes hi
  obtain ⟨_, hu, _⟩ := hi
  refine ⟨cs, hn, hu, ?_⟩
  simp only [LinkedSet.empty, hu, decide_eq_true_eq]
  constructor
  · intro hz
    have : cs.length = 0 := by exact_mod_cast hz
    exact List.length_eq_zero.mp this
  · intro hnil; rw [hnil]; rfl

/-- The count invariant on the state that the calls of `callsExample` return. -/
theorem run_count_invariant_example :
    ∃ cs, nodes arenaAfterCalls setAfterCalls = .ok cs ∧
      setAfterCalls.size = (cs.length : Int) ∧ (setAfterCalls.empty = true ↔ cs = []) :=
  run_count_invariant [] callsExample arenaAfterCalls setAfterCalls rfl

/-- C16, evaluated on the code: on a freshly constructed set, `insert(1); erase(1);
insert(2)` ends with `size()==1` and `empty()` false while no node is reachable
from the header (the traversal is empty); `insert(1); insert(2); erase(2);
insert(3)` and `insert_all({1,2}); erase_all({2}); insert_all({3})` end with
`size()==2` and the single reachable node holding 1. In each case the last
`insert` stores through the stale `front` that `erase` left and still counts the
node; under `run` that store is the invalid access. -/
theorem C16_count_off_after_stale_insert :
    (∃ h s, runRaw (LinkedSet.construct ([] : Heap Int)).1
        (LinkedSet.construct ([] : Heap Int)).2 [.insert 1, .erase 1, .insert 2] = .ok (h, s) ∧
      s.size = 1 ∧ s.empty = false ∧ nodes h s = .ok [] ∧ traversal h s = .ok []) ∧
    (∃ h s, runRaw (LinkedSet.construct ([] : Heap Int)).1
        (LinkedSet.construct ([] : Heap Int)).2
        [.insert 1, .insert 2, .erase 2, .insert 3] = .ok (h, s) ∧
      s.size = 2 ∧ nodes h s = .ok [(1, 1)] ∧ traversal h s = .ok [1]) ∧
    (∃ h s, runRaw (LinkedSet.construct ([] : Heap Int)).1
        (LinkedSet.construct ([] : Heap Int)).2
        [.insert_all [1, 2], .erase_all [2], .insert_all [3]] = .ok (h, s) ∧
      s.size = 2 ∧ traversal h s = .ok [1]) ∧
    run (LinkedSet.construct ([] : Heap Int)).1 (LinkedSet.construct ([] : Heap Int)).2
      [.insert 1, .erase 1, .insert 2] = .error .invalidAccess :=
  ⟨⟨_, _, rfl, rfl, rfl, rfl, rfl⟩, ⟨_, _, rfl, rfl, rfl, rfl⟩, ⟨_, _, rfl, rfl, rfl⟩, rfl⟩

/-- In every state that a sequence of calls returns under `run`, the traversal from
the header terminates and no value occurs in it twice. -/
theorem run_no_duplicates (h0 : Heap T) (ops : List (Op T)) (h : Heap T) (s : LinkedSet)
    (hrun : run (LinkedSet.construct h0).1 (LinkedSet.construct h0).2 ops = .ok (h, s)) :
    ∃ l, traversal h s = .ok l ∧ l.Nodup := by
  obtain ⟨cs, hi⟩ := inv_run ops (inv_construct h0) hrun
  have hn := inv_nodes hi
  obtain ⟨_, _, hnd⟩ := hi
  exact ⟨cs.map Prod.snd, traversal_of_nodes hn, hnd⟩

/-- C18: for the set `s` built from any sequence by the initializer-list
constructor, with `sId` its address: the copy constructor returns a copy of `s`,
`operator=` on any other set object `tgt` (whatever its data members) returns
with `tgt` a copy of `s`, and self-assignment returns with nothing changed.
A copy has the values of `s` in the same order and the same `size()`, compares
`==` to `s`, shares no node with `s`, and leaves every cell of the old arena, so
`s` itself, unchanged. -/
theorem C18_copy (h0 : Heap T) (seq : List T) (sId tId : Nat) (tgt : LinkedSet) :
    ∃ h s, LinkedSet.fromList h0 seq = .ok (h, s) ∧
      traversal h s = .ok (firstOccurrences seq) ∧
      (∃ h1 c, LinkedSet.copyConstruct h sId s = .ok (h1, c) ∧ CopyOf h s h1 c ∧
        traversal h1 c = .ok (firstOccurrences seq)) ∧
      (tId ≠ sId → ∃ h1 c, LinkedSet.assign h tId tgt sId s = .ok (h1, c) ∧
        CopyOf h s h1 c ∧ traversal h1 c = .ok (firstOccurrences seq)) ∧
      LinkedSet.assign h sId s sId s = .ok (h, s) := by
  obtain ⟨h, s, cs, hbuild, hg, hvals⟩ := fromList_good h0 seq
  have hnd : (cs.map Prod.snd).Nodup := by
    rw [hvals]; exact firstOccurrences_nodup seq
  have htrav : ∀ {h1 : Heap T} {c : LinkedSet}, CopyOf h s h1 c →
      traversal h1 c = .ok (firstOccurrences seq) := by
    intro h1 c hc
    obtain ⟨cs2, cc, _, _, hn, _, hnc, hv, _⟩ := hc
    rw [hg.nodes] at hn
    simp only [Except.ok.injEq] at hn
    rw [traversal_of_nodes hnc, hv, ← hn, hvals]
  refine ⟨h, s, hbuild, by rw [hg.traversal, hvals], ?_, ?_, ?_⟩
  · obtain ⟨h1, c, hrun, hc⟩ := copyConstruct_copyOf hg hnd sId
    exact ⟨h1, c, hrun, hc, htrav hc⟩
  · intro hne
    obtain ⟨h1, c, hrun, hc⟩ := assign_copyOf hg hnd sId tId tgt hne
    exact ⟨h1, c, hrun, hc, htrav hc⟩
  · simp [LinkedSet.assign]

/-- C19, evaluated on the code: on a freshly constructed set, `insert(1)` then
`erase(1)` return a state with an empty chain in which `front` is not the header
but the address of the deleted node; and `insert(1)`, `insert(2)`, `erase(2)`
return a state whose last node is the one holding 1 while `front` is the address
of the deleted node that held 2. Neither state is consistent. -/
theorem C19_front_stale_after_erase :
    (∃ h s, run (LinkedSet.construct ([] : Heap Int)).1 (LinkedSet.construct ([] : Heap Int)).2
        [.insert 1, .erase 1] = .ok (h, s) ∧
      nodes h s = .ok [] ∧ s.trailer = some 0 ∧ s.front = some 1 ∧
      load h s.front = none ∧ ¬ Consistent h s) ∧
    (∃ h s, run (LinkedSet.construct ([] : Heap Int)).1 (LinkedSet.construct ([] : Heap Int)).2
        [.insert 1, .insert 2, .erase 2] = .ok (h, s) ∧
      nodes h s = .ok [(1, 1)] ∧ s.front = some 2 ∧
      load h s.front = none ∧ ¬ Consistent h s) := by
  refine ⟨⟨_, _, rfl, rfl, rfl, rfl, rfl, ?_⟩, ⟨_, _, rfl, rfl, rfl, rfl, ?_⟩⟩
  · rintro ⟨cs, hn, hf, _⟩
    have hn2 : (Except.ok [] : Except Err (List (Nat × Int))) = .ok cs := hn
    simp only [Except.ok.injEq] at hn2
    subst hn2
    have hf2 : (some 1 : Ptr) = some 0 := hf
    simp at hf2
  · rintro ⟨cs, hn, hf, _⟩
    have hn2 : (Except.ok [(1, 1)] : Except Err (List (Nat × Int))) = .ok cs := hn
    simp only [Except.ok.injEq] at hn2
    subst hn2
    have hf2 : (some 2 : Ptr) = some 1 := hf
    simp at hf2

/-- C20, evaluated on the code: on a freshly constructed set, after `insert(1)` and
`erase(1)` have returned, `insert(2)` does not return: it assigns through `front`,
which is the address of the deleted node. No state follows in which
`contains(2)` is true; before the call `contains(2)` is false. -/
theorem C20_insert_after_erasing_last :
    ∃ h s, run (LinkedSet.construct ([] : Heap Int)).1 (LinkedSet.construct ([] : Heap Int)).2
        [.insert 1, .erase 1] = .ok (h, s) ∧
      contains h s 2 = .ok false ∧ load h s.front = none ∧
      insert h s 2 = .error .invalidAccess ∧
      run (LinkedSet.construct ([] : Heap Int)).1 (LinkedSet.construct ([] : Heap Int)).2
        [.insert 1, .erase 1, .insert 2] = .error .invalidAccess :=
  ⟨_, _, rfl, rfl, rfl, rfl, rfl⟩

end MoreClaims

end ics
